import Mathlib

/-!
# Support points of the C1 mapping (`source/fe/mapping_c1.cc`)

A shallow embedding of `MappingC1<dim>::add_line_support_points` and
`MappingC1<dim>::add_quad_support_points`.

* `double` is read as an arbitrary field `F`; the four `<cmath>` functions the
  source calls are passed as a record `CMath F`, so every definition below is
  an ordinary computable function.  The theorems are stated over `ℝ` with the
  real functions `realMath` (exact real arithmetic, no rounding).
* `std::vector<Point<2>> &a` is a `List (Point2 F)` passed in and returned;
  `push_back` appends at the end.
* A raised exception is recorded next to the vector in an `Outcome`.
-/

namespace dealii

/-! ## Scalars and points -/

/-- The `<cmath>` functions used by the source: `std::sqrt`, `std::atan2` (first argument
the ordinate, second the abscissa), `std::sin`, `std::cos`. -/
structure CMath (F : Type) where
  sqrt : F → F
  atan2 : F → F → F
  sin : F → F
  cos : F → F

/-- Two components `[0]`, `[1]` of a `Point<2>` or a `Tensor<1, 2>`. -/
@[ext] structure Point2 (F : Type) where
  x : F
  y : F
deriving DecidableEq

namespace Point2

variable {F : Type} [Field F]

/-- Componentwise sum, `operator+` and `operator+=`. -/
def add (p q : Point2 F) : Point2 F := ⟨p.x + q.x, p.y + q.y⟩

/-- Componentwise difference, `operator-` of two points. -/
def sub (p q : Point2 F) : Point2 F := ⟨p.x - q.x, p.y - q.y⟩

/-- Multiplication by a scalar, `operator*` with a `double` and `operator*=`. -/
def scale (k : F) (p : Point2 F) : Point2 F := ⟨k * p.x, k * p.y⟩

/-- Division by a scalar, `operator/=`. -/
def divide (p : Point2 F) (k : F) : Point2 F := ⟨p.x / k, p.y / k⟩

/-- Scalar product of two tensors of rank 1, `operator*` of two `Tensor<1, 2>`. -/
def dot (p q : Point2 F) : F := p.x * q.x + p.y * q.y

/-- Planar cross product `p.x * q.y - p.y * q.x`; it vanishes exactly for parallel vectors. -/
def cross (p q : Point2 F) : F := p.x * q.y - p.y * q.x

/-- Euclidean norm of a point, the square root of its scalar product with itself. -/
def norm (m : CMath F) (p : Point2 F) : F := m.sqrt (p.dot p)

end Point2

/-! ## Geometry queried from the triangulation -/

/-- What the source reads from a `line_iterator`: `vertex(0)`, `vertex(1)`, `at_boundary()`,
and the two normals that `get_manifold().get_normals_at_vertices` writes into
`face_vertex_normals`. -/
structure Line (F : Type) where
  vertex : Fin 2 → Point2 F
  at_boundary : Bool
  face_vertex_normals : Fin 2 → Point2 F

/-- What the source reads from a two-dimensional `cell_iterator`: `line(line_no)`. -/
structure Cell (F : Type) where
  line : Nat → Line F

/-- Modelled from the spec: `GeometryInfo<2>::lines_per_cell`, declared outside this file;
a quadrilateral has 4 edges. -/
def lines_per_cell : Nat := 4

/-! ## Exceptions -/

/-- The two exception objects named in the source. -/
inductive Exc where
  | ExcImpossibleInDim (dim : Nat)
  | ExcNotImplemented
deriving DecidableEq, Repr

/-- State after a call: the exception raised, when there is one, and the output vector. -/
structure Outcome (P : Type) where
  raised : Option Exc
  a : List P

/-- Modelled from the spec: the macro `Assert(cond, exc)`, declared outside this file.
It signals `exc` when `cond` is false and does nothing otherwise. -/
def Assert (cond : Bool) (exc : Exc) : Option Exc :=
  if cond then none else some exc

/-- Modelled from the spec: the macro `DEAL_II_NOT_IMPLEMENTED()`, declared outside this file.
It signals the not-implemented exception whenever it is reached. -/
def DEAL_II_NOT_IMPLEMENTED : Option Exc := some Exc.ExcNotImplemented

/-! ## `MappingC1<2>::add_line_support_points` -/

section Dim2

variable {F : Type} [Field F] (m : CMath F)

/-- The array `interior_gl_points`. -/
def interior_gl_points : F × F :=
  (0.5 - 0.5 * m.sqrt (1.0 / 5.0), 0.5 + 0.5 * m.sqrt (1.0 / 5.0))

/-- The tensor `coordinate_vector = line->vertex(1) - line->vertex(0)`. -/
def coordinate_vector (v0 v1 : Point2 F) : Point2 F := v1.sub v0

/-- The length `h = std::sqrt(coordinate_vector * coordinate_vector)`. -/
def h (v0 v1 : Point2 F) : F :=
  m.sqrt ((coordinate_vector v0 v1).dot (coordinate_vector v0 v1))

/-- The tensor `coordinate_axis`: `coordinate_vector` divided by `h`. -/
def coordinate_axis (v0 v1 : Point2 F) : Point2 F :=
  (coordinate_vector v0 v1).divide (h m v0 v1)

/-- The angle `alpha = std::atan2(coordinate_axis[1], coordinate_axis[0])`. -/
def alpha (v0 v1 : Point2 F) : F :=
  m.atan2 (coordinate_axis m v0 v1).y (coordinate_axis m v0 v1).x

/-- The numerator `n[1] * sin(alpha) + n[0] * cos(alpha)` of the two quotients. -/
def numerator (al : F) (n : Point2 F) : F := n.y * m.sin al + n.x * m.cos al

/-- The denominator `n[1] * cos(alpha) - n[0] * sin(alpha)` of the two quotients. -/
def denominator (al : F) (n : Point2 F) : F := n.y * m.cos al - n.x * m.sin al

/-- The coefficient `c`, from the normal at vertex 0. -/
def c (al : F) (n0 : Point2 F) : F :=
  -((n0.y * m.sin al + n0.x * m.cos al) / (n0.y * m.cos al - n0.x * m.sin al))

/-- The coefficient `b`, from the normal at vertex 1 and `c`. -/
def b (al : F) (n0 n1 : Point2 F) : F :=
  ((n1.y * m.sin al + n1.x * m.cos al) / (n1.y * m.cos al - n1.x * m.sin al)) - 2 * c m al n0

/-- The values `s_t1`, `s_t2`: the cubic in Horner form at `t`. -/
def s_t (b c t : F) : F := (((-b - c) * t + b) * t + c) * t

/-- The rotation by `alpha` applied to a unit point in the inner loop. -/
def rotate (al : F) (u : Point2 F) : Point2 F :=
  ⟨m.cos al * u.x - m.sin al * u.y, m.sin al * u.x + m.cos al * u.y⟩

/-- The body of the inner loop: rotate `new_unit_point`, scale by `h`, shift by `vertex(0)`. -/
def real_point (al hh : F) (v0 u : Point2 F) : Point2 F :=
  ((rotate m al u).scale hh).add v0

/-- The array `new_unit_points` of the boundary branch. -/
def new_unit_points (v0 v1 n0 n1 : Point2 F) : List (Point2 F) :=
  let al := alpha m v0 v1
  let c := c m al n0
  let b := b m al n0 n1
  let t1 := (interior_gl_points m).1
  let t2 := (interior_gl_points m).2
  let s_t1 := s_t b c t1
  let s_t2 := s_t b c t2
  [⟨t1, s_t1⟩, ⟨t2, s_t2⟩]

/-- The points the boundary branch pushes back for a line with vertices `v0`, `v1` and
normals `n0`, `n1`. -/
def boundary_points (v0 v1 n0 n1 : Point2 F) : List (Point2 F) :=
  (new_unit_points m v0 v1 n0 n1).map (real_point m (alpha m v0 v1) (h m v0 v1) v0)

/-- The fitted cubic in real coordinates: what the inner loop computes from the unit point
`(t, s(t))`.  The boundary branch pushes it back at `t1` and at `t2`. -/
def curve (v0 v1 n0 n1 : Point2 F) (t : F) : Point2 F :=
  real_point m (alpha m v0 v1) (h m v0 v1) v0
    ⟨t, s_t (b m (alpha m v0 v1) n0 n1) (c m (alpha m v0 v1) n0) t⟩

/-- The tangent of the fitted cubic in real coordinates where the local tangent is
`(1, slope)`: rotated by `alpha` and scaled by `h` like the points. -/
def global_tangent (v0 v1 : Point2 F) (slope : F) : Point2 F :=
  (rotate m (alpha m v0 v1) ⟨1, slope⟩).scale (h m v0 v1)

/-- The points the other branch pushes back for a line with vertices `v0`, `v1`. -/
def straight_points (v0 v1 : Point2 F) : List (Point2 F) :=
  [(Point2.scale (1.0 - (interior_gl_points m).1) v0).add
      (Point2.scale (interior_gl_points m).1 v1),
   (Point2.scale (1.0 - (interior_gl_points m).2) v0).add
      (Point2.scale (interior_gl_points m).2 v1)]

/-- The body of the loop over the lines: the points pushed back for one line. -/
def line_support_points (line : Line F) : List (Point2 F) :=
  if line.at_boundary then
    boundary_points m (line.vertex 0) (line.vertex 1)
      (line.face_vertex_normals 0) (line.face_vertex_normals 1)
  else
    straight_points m (line.vertex 0) (line.vertex 1)

/-- The loop `for (line_no = 0; line_no < lines_per_cell; ++line_no)` started at `line_no`
with `fuel` lines to go. -/
def line_loop (cell : Cell F) : Nat → Nat → List (Point2 F) → List (Point2 F)
  | 0, _, a => a
  | fuel + 1, line_no, a =>
      line_loop cell fuel (line_no + 1) (a ++ line_support_points m (cell.line line_no))

/-- The function `MappingC1<2>::add_line_support_points`. -/
def add_line_support_points_2 (cell : Cell F) (a : List (Point2 F)) : Outcome (Point2 F) :=
  ⟨none, line_loop m cell lines_per_cell 0 a⟩

/-- The point the claims ascribe to one edge and one abscissa `t`: on the fitted cubic when
the edge is at the boundary, on the straight segment otherwise; it is computed from the
edge's own vertices and normals. -/
def spec_edge_point (line : Line F) (t : F) : Point2 F :=
  if line.at_boundary then
    curve m (line.vertex 0) (line.vertex 1)
      (line.face_vertex_normals 0) (line.face_vertex_normals 1) t
  else
    (Point2.scale (1 - t) (line.vertex 0)).add (Point2.scale t (line.vertex 1))

end Dim2

/-! ## Formulas the code is compared with -/

section Formulas

variable {F : Type} [Field F]

/-- The Legendre polynomial of degree 3, `(5 x³ - 3 x) / 2`. -/
def legendre_3 (x : F) : F := (5 * x ^ 3 - 3 * x) / 2

/-- The coefficient `c` written without an angle: minus the scalar product of the normal at
vertex 0 with the chord `d = v1 - v0`, over `n0.y * d.x - n0.x * d.y`. -/
def trig_free_c (v0 v1 n0 : Point2 F) : F :=
  -((n0.x * (v1.x - v0.x) + n0.y * (v1.y - v0.y))
    / (n0.y * (v1.x - v0.x) - n0.x * (v1.y - v0.y)))

/-- The coefficient `b` written without an angle: the scalar product of the normal at
vertex 1 with the chord `d`, over `n1.y * d.x - n1.x * d.y`, minus `2 c`. -/
def trig_free_b (v0 v1 n0 n1 : Point2 F) : F :=
  (n1.x * (v1.x - v0.x) + n1.y * (v1.y - v0.y))
      / (n1.y * (v1.x - v0.x) - n1.x * (v1.y - v0.y))
    - 2 * trig_free_c v0 v1 n0

/-- The point `v0 + t d + s(t) (-d.y, d.x)` with `d = v1 - v0` and `s` the Horner cubic of
`trig_free_b` and `trig_free_c`. -/
def trig_free_point (v0 v1 n0 n1 : Point2 F) (t : F) : Point2 F :=
  (v0.add (Point2.scale t (v1.sub v0))).add
    (Point2.scale (s_t (trig_free_b v0 v1 n0 n1) (trig_free_c v0 v1 n0) t)
      ⟨-(v1.sub v0).y, (v1.sub v0).x⟩)

/-- The reflection across the x-axis, `(x, y) -> (x, -y)`. -/
def reflect (p : Point2 F) : Point2 F := ⟨p.x, -p.y⟩

end Formulas

/-! ## The functions that only raise -/

/-- The function `MappingC1<1>::add_line_support_points`. -/
def add_line_support_points_1 {C P : Type} (_cell : C) (a : List P) : Outcome P :=
  let dim := 1
  ⟨Assert (decide (dim > 1)) (Exc.ExcImpossibleInDim dim), a⟩

/-- The generic `MappingC1<dim, spacedim>::add_line_support_points`. -/
def add_line_support_points_generic {C P : Type} (_cell : C) (a : List P) : Outcome P :=
  ⟨DEAL_II_NOT_IMPLEMENTED, a⟩

/-- The function `MappingC1<1>::add_quad_support_points`. -/
def add_quad_support_points_1 {C P : Type} (_cell : C) (a : List P) : Outcome P :=
  let dim := 1
  ⟨Assert (decide (dim > 2)) (Exc.ExcImpossibleInDim dim), a⟩

/-- The function `MappingC1<2>::add_quad_support_points`. -/
def add_quad_support_points_2 {C P : Type} (_cell : C) (a : List P) : Outcome P :=
  let dim := 2
  ⟨Assert (decide (dim > 2)) (Exc.ExcImpossibleInDim dim), a⟩

/-- The generic `MappingC1<dim, spacedim>::add_quad_support_points`, instantiated for
`dim = 3`. -/
def add_quad_support_points_generic {C P : Type} (_cell : C) (a : List P) : Outcome P :=
  ⟨DEAL_II_NOT_IMPLEMENTED, a⟩

/-! ## Real arithmetic -/

/-- The `<cmath>` functions on the real numbers.  `atan2 y x` is the argument of `x + y i`:
the angle in `(-π, π]` of the point `(x, y)`, and `0` at the origin. -/
noncomputable def realMath : CMath ℝ where
  sqrt := Real.sqrt
  atan2 := fun y x => Complex.arg ⟨x, y⟩
  sin := Real.sin
  cos := Real.cos

/-! ## Lemmas on the real functions -/

section RealLemmas

@[simp] theorem realMath_sqrt (x : ℝ) : realMath.sqrt x = Real.sqrt x := rfl

@[simp] theorem realMath_sin (x : ℝ) : realMath.sin x = Real.sin x := rfl

@[simp] theorem realMath_cos (x : ℝ) : realMath.cos x = Real.cos x := rfl

@[simp] theorem realMath_atan2 (y x : ℝ) : realMath.atan2 y x = Complex.arg ⟨x, y⟩ := rfl

/-- The cubic `s_t b c` has derivative `3 a x² + 2 b x + c` at `x`, with `a = -b - c`. -/
theorem s_t_hasDerivAt (b c x : ℝ) :
    HasDerivAt (fun t => s_t b c t) (3 * (-b - c) * x ^ 2 + 2 * b * x + c) x := by
  have hid : HasDerivAt (fun t : ℝ => t) 1 x := hasDerivAt_id x
  have hd := ((((hid.const_mul (-b - c)).add_const b).mul hid).add_const c).mul hid
  unfold s_t
  convert hd using 1
  ring

/-- The rotated local tangent `(1, c)` is orthogonal to the normal at vertex 0. -/
theorem dot_rotate_c (al : ℝ) (n0 : Point2 ℝ) (hd : denominator realMath al n0 ≠ 0) :
    (rotate realMath al ⟨1, c realMath al n0⟩).dot n0 = 0 := by
  simp only [denominator, realMath_sin, realMath_cos] at hd
  simp only [rotate, Point2.dot, c, realMath_sin, realMath_cos]
  field_simp
  ring

/-- The rotated local tangent `(1, -b - 2c)` is orthogonal to the normal at vertex 1. -/
theorem dot_rotate_b (al : ℝ) (n0 n1 : Point2 ℝ) (hd : denominator realMath al n1 ≠ 0) :
    (rotate realMath al ⟨1, -(b realMath al n0 n1) - 2 * c realMath al n0⟩).dot n1 = 0 := by
  simp only [denominator, realMath_sin, realMath_cos] at hd
  simp only [rotate, Point2.dot, b, realMath_sin, realMath_cos]
  field_simp
  ring

/-- The slope of the cubic at `t = 0` is `c`. -/
theorem s_t_hasDerivAt_zero (b c : ℝ) : HasDerivAt (fun t => s_t b c t) c 0 := by
  convert s_t_hasDerivAt b c 0 using 1
  ring

/-- The slope of the cubic at `t = 1` is `-b - 2c`. -/
theorem s_t_hasDerivAt_one (b c : ℝ) : HasDerivAt (fun t => s_t b c t) (-b - 2 * c) 1 := by
  convert s_t_hasDerivAt b c 1 using 1
  ring

/-- On a unit vector, `cos (atan2 y x) = x` and `sin (atan2 y x) = y`. -/
theorem cos_sin_atan2_unit (x y : ℝ) (hxy : x * x + y * y = 1) :
    Real.cos (realMath.atan2 y x) = x ∧ Real.sin (realMath.atan2 y x) = y := by
  have habs : Complex.abs ⟨x, y⟩ = 1 := by
    rw [Complex.abs_apply, Complex.normSq_mk, hxy, Real.sqrt_one]
  have hne : (⟨x, y⟩ : ℂ) ≠ 0 := by
    intro h0
    rw [h0] at habs
    simp at habs
  constructor
  · rw [realMath_atan2, Complex.cos_arg hne, habs]; simp
  · rw [realMath_atan2, Complex.sin_arg, habs]; simp

/-- The square of `h` is the squared length of the chord. -/
theorem h_mul_self (v0 v1 : Point2 ℝ) :
    h realMath v0 v1 * h realMath v0 v1
      = (v1.x - v0.x) * (v1.x - v0.x) + (v1.y - v0.y) * (v1.y - v0.y) := by
  simp only [h, coordinate_vector, Point2.sub, Point2.dot, realMath_sqrt]
  exact Real.mul_self_sqrt (add_nonneg (mul_self_nonneg _) (mul_self_nonneg _))

/-- The length `h` of an edge with distinct vertices is positive. -/
theorem h_pos (v0 v1 : Point2 ℝ) (hv : v0 ≠ v1) : 0 < h realMath v0 v1 := by
  simp only [h, coordinate_vector, Point2.sub, Point2.dot, realMath_sqrt]
  apply Real.sqrt_pos.mpr
  by_contra hneg
  have hx : v1.x - v0.x = 0 := by nlinarith [mul_self_nonneg (v1.x - v0.x), mul_self_nonneg (v1.y - v0.y)]
  have hy : v1.y - v0.y = 0 := by nlinarith [mul_self_nonneg (v1.x - v0.x), mul_self_nonneg (v1.y - v0.y)]
  exact hv (Point2.ext (by linarith) (by linarith))

/-- For distinct vertices, `cos alpha` is the first component of the chord over `h`. -/
theorem cos_alpha (v0 v1 : Point2 ℝ) (hv : v0 ≠ v1) :
    Real.cos (alpha realMath v0 v1) = (v1.x - v0.x) / h realMath v0 v1 := by
  have hh := h_pos v0 v1 hv
  have hs := h_mul_self v0 v1
  have hu : (v1.x - v0.x) / h realMath v0 v1 * ((v1.x - v0.x) / h realMath v0 v1)
      + (v1.y - v0.y) / h realMath v0 v1 * ((v1.y - v0.y) / h realMath v0 v1) = 1 := by
    field_simp
    linarith
  exact (cos_sin_atan2_unit _ _ hu).1

/-- For distinct vertices, `sin alpha` is the second component of the chord over `h`. -/
theorem sin_alpha (v0 v1 : Point2 ℝ) (hv : v0 ≠ v1) :
    Real.sin (alpha realMath v0 v1) = (v1.y - v0.y) / h realMath v0 v1 := by
  have hh := h_pos v0 v1 hv
  have hs := h_mul_self v0 v1
  have hu : (v1.x - v0.x) / h realMath v0 v1 * ((v1.x - v0.x) / h realMath v0 v1)
      + (v1.y - v0.y) / h realMath v0 v1 * ((v1.y - v0.y) / h realMath v0 v1) = 1 := by
    field_simp
    linarith
  exact (cos_sin_atan2_unit _ _ hu).2

/-- For distinct vertices, the numerator is the scalar product of the normal with the chord,
over `h`. -/
theorem numerator_eq (v0 v1 n : Point2 ℝ) (hv : v0 ≠ v1) :
    numerator realMath (alpha realMath v0 v1) n
      = (n.x * (v1.x - v0.x) + n.y * (v1.y - v0.y)) / h realMath v0 v1 := by
  simp only [numerator, realMath_sin, realMath_cos, cos_alpha v0 v1 hv, sin_alpha v0 v1 hv]
  ring

/-- For distinct vertices, the denominator is the cross product of the chord with the normal,
over `h`. -/
theorem denominator_eq (v0 v1 n : Point2 ℝ) (hv : v0 ≠ v1) :
    denominator realMath (alpha realMath v0 v1) n
      = (n.y * (v1.x - v0.x) - n.x * (v1.y - v0.y)) / h realMath v0 v1 := by
  simp only [denominator, realMath_sin, realMath_cos, cos_alpha v0 v1 hv, sin_alpha v0 v1 hv]
  ring

/-- A normal with a non-zero denominator is not the zero vector. -/
theorem normal_ne_zero (al : ℝ) (n : Point2 ℝ) (hd : denominator realMath al n ≠ 0) :
    n.x ≠ 0 ∨ n.y ≠ 0 := by
  by_contra hn
  push_neg at hn
  apply hd
  simp [denominator, hn.1, hn.2]

/-- Two plane vectors orthogonal to the same non-zero vector are parallel. -/
theorem cross_eq_zero_of_dot_eq_zero (u w n : Point2 ℝ) (hn : n.x ≠ 0 ∨ n.y ≠ 0)
    (hu : u.dot n = 0) (hw : w.dot n = 0) : u.cross w = 0 := by
  simp only [Point2.dot] at hu hw
  simp only [Point2.cross]
  rcases hn with hx | hy
  · have hz : (u.x * w.y - u.y * w.x) * n.x = 0 := by linear_combination w.y * hu - u.y * hw
    exact (mul_eq_zero.mp hz).resolve_right hx
  · have hz : (u.x * w.y - u.y * w.x) * n.y = 0 := by linear_combination u.x * hw - w.x * hu
    exact (mul_eq_zero.mp hz).resolve_right hy

/-- The scalar product with a scaled vector. -/
theorem dot_scale (k : ℝ) (u n : Point2 ℝ) : (Point2.scale k u).dot n = k * u.dot n := by
  simp only [Point2.scale, Point2.dot]
  ring

/-- The first component of the fitted cubic has the first component of `global_tangent` as
its derivative. -/
theorem curve_x_hasDerivAt (v0 v1 n0 n1 : Point2 ℝ) (t s : ℝ)
    (hs : HasDerivAt (fun t => s_t (b realMath (alpha realMath v0 v1) n0 n1)
      (c realMath (alpha realMath v0 v1) n0) t) s t) :
    HasDerivAt (fun t => (curve realMath v0 v1 n0 n1 t).x)
      (global_tangent realMath v0 v1 s).x t := by
  have hid : HasDerivAt (fun t : ℝ => t) 1 t := hasDerivAt_id t
  have hd := ((((hid.const_mul (Real.cos (alpha realMath v0 v1))).sub
    (hs.const_mul (Real.sin (alpha realMath v0 v1)))).const_mul (h realMath v0 v1)).add_const
      v0.x)
  simp only [curve, real_point, rotate, Point2.scale, Point2.add, global_tangent, realMath_sin,
    realMath_cos]
  exact hd

/-- The second component of the fitted cubic has the second component of `global_tangent` as
its derivative. -/
theorem curve_y_hasDerivAt (v0 v1 n0 n1 : Point2 ℝ) (t s : ℝ)
    (hs : HasDerivAt (fun t => s_t (b realMath (alpha realMath v0 v1) n0 n1)
      (c realMath (alpha realMath v0 v1) n0) t) s t) :
    HasDerivAt (fun t => (curve realMath v0 v1 n0 n1 t).y)
      (global_tangent realMath v0 v1 s).y t := by
  have hid : HasDerivAt (fun t : ℝ => t) 1 t := hasDerivAt_id t
  have hd := ((((hid.const_mul (Real.sin (alpha realMath v0 v1))).add
    (hs.const_mul (Real.cos (alpha realMath v0 v1)))).const_mul (h realMath v0 v1)).add_const
      v0.y)
  simp only [curve, real_point, rotate, Point2.scale, Point2.add, global_tangent, realMath_sin,
    realMath_cos]
  exact hd

/-- The boundary branch pushes back the fitted cubic at `t1` and at `t2`. -/
theorem boundary_points_eq_curve (v0 v1 n0 n1 : Point2 ℝ) :
    boundary_points realMath v0 v1 n0 n1
      = [curve realMath v0 v1 n0 n1 (interior_gl_points realMath).1,
         curve realMath v0 v1 n0 n1 (interior_gl_points realMath).2] := rfl

/-- A non-zero cross product of chord and normal gives a non-zero denominator. -/
theorem denominator_ne_zero (v0 v1 n : Point2 ℝ) (hv : v0 ≠ v1)
    (hc : n.y * (v1.x - v0.x) - n.x * (v1.y - v0.y) ≠ 0) :
    denominator realMath (alpha realMath v0 v1) n ≠ 0 := by
  rw [denominator_eq v0 v1 n hv]
  exact div_ne_zero hc (h_pos v0 v1 hv).ne'

/-- For distinct vertices, `c` without the angle. -/
theorem c_eq (v0 v1 n0 : Point2 ℝ) (hv : v0 ≠ v1) :
    c realMath (alpha realMath v0 v1) n0
      = -((n0.x * (v1.x - v0.x) + n0.y * (v1.y - v0.y))
          / (n0.y * (v1.x - v0.x) - n0.x * (v1.y - v0.y))) := by
  have hc : c realMath (alpha realMath v0 v1) n0
      = -(numerator realMath (alpha realMath v0 v1) n0
          / denominator realMath (alpha realMath v0 v1) n0) := rfl
  rw [hc, numerator_eq v0 v1 n0 hv, denominator_eq v0 v1 n0 hv,
    div_div_div_cancel_right₀ (h_pos v0 v1 hv).ne']

/-- For distinct vertices, `b` without the angle. -/
theorem b_eq (v0 v1 n0 n1 : Point2 ℝ) (hv : v0 ≠ v1) :
    b realMath (alpha realMath v0 v1) n0 n1
      = (n1.x * (v1.x - v0.x) + n1.y * (v1.y - v0.y))
          / (n1.y * (v1.x - v0.x) - n1.x * (v1.y - v0.y))
        - 2 * c realMath (alpha realMath v0 v1) n0 := by
  have hb : b realMath (alpha realMath v0 v1) n0 n1
      = numerator realMath (alpha realMath v0 v1) n1
          / denominator realMath (alpha realMath v0 v1) n1
        - 2 * c realMath (alpha realMath v0 v1) n0 := rfl
  rw [hb, numerator_eq v0 v1 n1 hv, denominator_eq v0 v1 n1 hv,
    div_div_div_cancel_right₀ (h_pos v0 v1 hv).ne']

/-- For distinct vertices, the real point of a unit point without the angle. -/
theorem real_point_eq (v0 v1 u : Point2 ℝ) (hv : v0 ≠ v1) :
    real_point realMath (alpha realMath v0 v1) (h realMath v0 v1) v0 u
      = ⟨v0.x + u.x * (v1.x - v0.x) - u.y * (v1.y - v0.y),
         v0.y + u.x * (v1.y - v0.y) + u.y * (v1.x - v0.x)⟩ := by
  have hh := (h_pos v0 v1 hv).ne'
  simp only [real_point, rotate, Point2.scale, Point2.add, realMath_sin, realMath_cos,
    cos_alpha v0 v1 hv, sin_alpha v0 v1 hv]
  ext
  · simp only
    field_simp
    ring
  · simp only
    field_simp
    ring

/-- Bounds on the square root in `interior_gl_points`. -/
theorem sqrt_fifth_bounds :
    (0.44721 : ℝ) < Real.sqrt (1.0 / 5.0) ∧ Real.sqrt (1.0 / 5.0) < 0.44722 := by
  constructor
  · apply Real.lt_sqrt_of_sq_lt
    norm_num
  · rw [Real.sqrt_lt' (by norm_num)]
    norm_num

/-- The square root in `interior_gl_points` squares to one fifth. -/
theorem sqrt_fifth_mul_self : Real.sqrt (1.0 / 5.0) * Real.sqrt (1.0 / 5.0) = 1 / 5 := by
  rw [Real.mul_self_sqrt (by norm_num)]
  norm_num

/-- The two abscissae add up to 1. -/
theorem interior_gl_points_sum :
    (interior_gl_points realMath).1 + (interior_gl_points realMath).2 = 1 := by
  simp only [interior_gl_points]
  ring

/-- For distinct vertices, the two points of the boundary branch without the angle; the
coefficients `b` and `c` are left as the source computes them. -/
theorem boundary_points_eq (v0 v1 n0 n1 : Point2 ℝ) (hv : v0 ≠ v1) :
    boundary_points realMath v0 v1 n0 n1
      = [⟨v0.x + (interior_gl_points realMath).1 * (v1.x - v0.x)
            - s_t (b realMath (alpha realMath v0 v1) n0 n1) (c realMath (alpha realMath v0 v1) n0)
                (interior_gl_points realMath).1 * (v1.y - v0.y),
          v0.y + (interior_gl_points realMath).1 * (v1.y - v0.y)
            + s_t (b realMath (alpha realMath v0 v1) n0 n1) (c realMath (alpha realMath v0 v1) n0)
                (interior_gl_points realMath).1 * (v1.x - v0.x)⟩,
         ⟨v0.x + (interior_gl_points realMath).2 * (v1.x - v0.x)
            - s_t (b realMath (alpha realMath v0 v1) n0 n1) (c realMath (alpha realMath v0 v1) n0)
                (interior_gl_points realMath).2 * (v1.y - v0.y),
          v0.y + (interior_gl_points realMath).2 * (v1.y - v0.y)
            + s_t (b realMath (alpha realMath v0 v1) n0 n1) (c realMath (alpha realMath v0 v1) n0)
                (interior_gl_points realMath).2 * (v1.x - v0.x)⟩] := by
  simp only [boundary_points, new_unit_points, List.map, real_point_eq v0 v1 _ hv]

/-- A rotation followed by a translation keeps distinct points distinct. -/
theorem rigid_ne (th : ℝ) (T v0 v1 : Point2 ℝ) (hv : v0 ≠ v1) :
    (rotate realMath th v0).add T ≠ (rotate realMath th v1).add T := by
  intro he
  have hx := congrArg Point2.x he
  have hy := congrArg Point2.y he
  simp only [rotate, Point2.add, realMath_sin, realMath_cos] at hx hy
  have hcs := Real.cos_sq_add_sin_sq th
  apply hv
  ext
  · linear_combination Real.cos th * hx + Real.sin th * hy - (v0.x - v1.x) * hcs
  · linear_combination Real.cos th * hy - Real.sin th * hx - (v0.y - v1.y) * hcs

/-- The coefficient `c` does not change under a rotation followed by a translation. -/
theorem c_rigid (th : ℝ) (T v0 v1 n0 : Point2 ℝ) (hv : v0 ≠ v1) :
    c realMath (alpha realMath ((rotate realMath th v0).add T) ((rotate realMath th v1).add T))
        (rotate realMath th n0)
      = c realMath (alpha realMath v0 v1) n0 := by
  rw [c_eq _ _ _ (rigid_ne th T v0 v1 hv), c_eq _ _ _ hv]
  have hcs := Real.cos_sq_add_sin_sq th
  have hN : (rotate realMath th n0).x
        * (((rotate realMath th v1).add T).x - ((rotate realMath th v0).add T).x)
      + (rotate realMath th n0).y
        * (((rotate realMath th v1).add T).y - ((rotate realMath th v0).add T).y)
      = n0.x * (v1.x - v0.x) + n0.y * (v1.y - v0.y) := by
    simp only [rotate, Point2.add, realMath_sin, realMath_cos]
    linear_combination (n0.x * (v1.x - v0.x) + n0.y * (v1.y - v0.y)) * hcs
  have hD : (rotate realMath th n0).y
        * (((rotate realMath th v1).add T).x - ((rotate realMath th v0).add T).x)
      - (rotate realMath th n0).x
        * (((rotate realMath th v1).add T).y - ((rotate realMath th v0).add T).y)
      = n0.y * (v1.x - v0.x) - n0.x * (v1.y - v0.y) := by
    simp only [rotate, Point2.add, realMath_sin, realMath_cos]
    linear_combination (n0.y * (v1.x - v0.x) - n0.x * (v1.y - v0.y)) * hcs
  rw [hN, hD]

/-- The coefficient `b` does not change under a rotation followed by a translation. -/
theorem b_rigid (th : ℝ) (T v0 v1 n0 n1 : Point2 ℝ) (hv : v0 ≠ v1) :
    b realMath (alpha realMath ((rotate realMath th v0).add T) ((rotate realMath th v1).add T))
        (rotate realMath th n0) (rotate realMath th n1)
      = b realMath (alpha realMath v0 v1) n0 n1 := by
  rw [b_eq _ _ _ _ (rigid_ne th T v0 v1 hv), b_eq _ _ _ _ hv, c_rigid th T v0 v1 n0 hv]
  have hcs := Real.cos_sq_add_sin_sq th
  have hN : (rotate realMath th n1).x
        * (((rotate realMath th v1).add T).x - ((rotate realMath th v0).add T).x)
      + (rotate realMath th n1).y
        * (((rotate realMath th v1).add T).y - ((rotate realMath th v0).add T).y)
      = n1.x * (v1.x - v0.x) + n1.y * (v1.y - v0.y) := by
    simp only [rotate, Point2.add, realMath_sin, realMath_cos]
    linear_combination (n1.x * (v1.x - v0.x) + n1.y * (v1.y - v0.y)) * hcs
  have hD : (rotate realMath th n1).y
        * (((rotate realMath th v1).add T).x - ((rotate realMath th v0).add T).x)
      - (rotate realMath th n1).x
        * (((rotate realMath th v1).add T).y - ((rotate realMath th v0).add T).y)
      = n1.y * (v1.x - v0.x) - n1.x * (v1.y - v0.y) := by
    simp only [rotate, Point2.add, realMath_sin, realMath_cos]
    linear_combination (n1.y * (v1.x - v0.x) - n1.x * (v1.y - v0.y)) * hcs
  rw [hN, hD]

/-- The coefficient `c` of the edge taken from vertex 1 to vertex 0. -/
theorem c_swap (v0 v1 n0 n1 : Point2 ℝ) (hv : v0 ≠ v1) :
    c realMath (alpha realMath v1 v0) n1
      = -(b realMath (alpha realMath v0 v1) n0 n1) - 2 * c realMath (alpha realMath v0 v1) n0 := by
  rw [c_eq _ _ _ hv.symm, b_eq _ _ _ _ hv]
  have hN : n1.x * (v0.x - v1.x) + n1.y * (v0.y - v1.y)
      = -(n1.x * (v1.x - v0.x) + n1.y * (v1.y - v0.y)) := by ring
  have hD : n1.y * (v0.x - v1.x) - n1.x * (v0.y - v1.y)
      = -(n1.y * (v1.x - v0.x) - n1.x * (v1.y - v0.y)) := by ring
  rw [hN, hD, neg_div_neg_eq]
  ring

/-- The coefficient `b` of the edge taken from vertex 1 to vertex 0. -/
theorem b_swap (v0 v1 n0 n1 : Point2 ℝ) (hv : v0 ≠ v1) :
    b realMath (alpha realMath v1 v0) n1 n0
      = 2 * b realMath (alpha realMath v0 v1) n0 n1 + 3 * c realMath (alpha realMath v0 v1) n0 := by
  rw [b_eq _ _ _ _ hv.symm, c_swap v0 v1 n0 n1 hv, c_eq v0 v1 n0 hv]
  have hN : n0.x * (v0.x - v1.x) + n0.y * (v0.y - v1.y)
      = -(n0.x * (v1.x - v0.x) + n0.y * (v1.y - v0.y)) := by ring
  have hD : n0.y * (v0.x - v1.x) - n0.x * (v0.y - v1.y)
      = -(n0.y * (v1.x - v0.x) - n0.x * (v1.y - v0.y)) := by ring
  rw [hN, hD, neg_div_neg_eq]
  ring

/-- The cubic with `b = 1`, `c = -1` takes the value `-1/5` at both abscissae. -/
theorem s_t_arc :
    s_t 1 (-1) (interior_gl_points realMath).1 = -(1 / 5)
      ∧ s_t 1 (-1) (interior_gl_points realMath).2 = -(1 / 5) := by
  have hs := sqrt_fifth_mul_self
  simp only [s_t, interior_gl_points, realMath_sqrt]
  constructor
  · linear_combination (1 / 4 : ℝ) * hs
  · linear_combination (1 / 4 : ℝ) * hs

/-- The two points pushed back for the edge from `(1, 0)` to `(0, 1)` with the normals
`(1, 0)` and `(0, 1)`. -/
theorem arc_points :
    boundary_points realMath ⟨1, 0⟩ ⟨0, 1⟩ ⟨1, 0⟩ ⟨0, 1⟩
      = [⟨6 / 5 - (interior_gl_points realMath).1, (interior_gl_points realMath).1 + 1 / 5⟩,
         ⟨6 / 5 - (interior_gl_points realMath).2, (interior_gl_points realMath).2 + 1 / 5⟩] := by
  have hv : (⟨1, 0⟩ : Point2 ℝ) ≠ ⟨0, 1⟩ := by simp
  have hc : c realMath (alpha realMath ⟨1, 0⟩ ⟨0, 1⟩) ⟨1, 0⟩ = -1 := by
    rw [c_eq _ _ _ hv]
    norm_num
  have hb : b realMath (alpha realMath ⟨1, 0⟩ ⟨0, 1⟩) ⟨1, 0⟩ ⟨0, 1⟩ = 1 := by
    rw [b_eq _ _ _ _ hv, hc]
    norm_num
  rw [boundary_points_eq _ _ _ _ hv, hc, hb, s_t_arc.1, s_t_arc.2]
  refine congrArg₂ List.cons ?_ (congrArg₂ List.cons ?_ rfl)
  · ext
    · simp only
      ring
    · simp only
      ring
  · ext
    · simp only
      ring
    · simp only
      ring

/-- The squared norms of the two points of `arc_points`. -/
theorem arc_points_dot :
    (boundary_points realMath ⟨1, 0⟩ ⟨0, 1⟩ ⟨1, 0⟩ ⟨0, 1⟩).map (fun p => p.dot p)
      = [27 / 25, 27 / 25] := by
  have hs := sqrt_fifth_mul_self
  rw [arc_points]
  simp only [List.map, Point2.dot, interior_gl_points, realMath_sqrt]
  refine congrArg₂ List.cons ?_ (congrArg₂ List.cons ?_ rfl)
  · linear_combination (1 / 2 : ℝ) * hs
  · linear_combination (1 / 2 : ℝ) * hs

/-- Bounds on the square root of `27/25`. -/
theorem sqrt_arc_bounds :
    (1.039 : ℝ) < Real.sqrt (27 / 25) ∧ Real.sqrt (27 / 25) < 1.04 := by
  constructor
  · apply Real.lt_sqrt_of_sq_lt
    norm_num
  · rw [Real.sqrt_lt' (by norm_num)]
    norm_num

/-- The norms of the two points of `arc_points`. -/
theorem arc_points_norm :
    (boundary_points realMath ⟨1, 0⟩ ⟨0, 1⟩ ⟨1, 0⟩ ⟨0, 1⟩).map (Point2.norm realMath)
      = [Real.sqrt (27 / 25), Real.sqrt (27 / 25)] := by
  have hd := arc_points_dot
  have hn : (boundary_points realMath ⟨1, 0⟩ ⟨0, 1⟩ ⟨1, 0⟩ ⟨0, 1⟩).map (Point2.norm realMath)
      = ((boundary_points realMath ⟨1, 0⟩ ⟨0, 1⟩ ⟨1, 0⟩ ⟨0, 1⟩).map (fun p => p.dot p)).map
          Real.sqrt := by
    rw [List.map_map]
    rfl
  rw [hn, hd]
  rfl

/-- A non-zero normal orthogonal to a non-zero chord has a non-zero cross product with it. -/
theorem cross_ne_zero_of_dot_eq_zero (v0 v1 n : Point2 ℝ) (hv : v0 ≠ v1)
    (hn : n.x ≠ 0 ∨ n.y ≠ 0) (hp : n.dot (coordinate_vector v0 v1) = 0) :
    n.y * (v1.x - v0.x) - n.x * (v1.y - v0.y) ≠ 0 := by
  simp only [Point2.dot, coordinate_vector, Point2.sub] at hp
  intro hc
  have hh := h_pos v0 v1 hv
  have hs := h_mul_self v0 v1
  have hprod : (n.x * n.x + n.y * n.y) * (h realMath v0 v1 * h realMath v0 v1) = 0 := by
    rw [hs]
    linear_combination (n.x * (v1.x - v0.x) + n.y * (v1.y - v0.y)) * hp
      + (n.y * (v1.x - v0.x) - n.x * (v1.y - v0.y)) * hc
  have hnn : 0 < n.x * n.x + n.y * n.y := by
    rcases hn with hx | hy
    · have := mul_self_pos.mpr hx
      nlinarith [mul_self_nonneg n.y]
    · have := mul_self_pos.mpr hy
      nlinarith [mul_self_nonneg n.x]
  have hpos : 0 < (n.x * n.x + n.y * n.y) * (h realMath v0 v1 * h realMath v0 v1) :=
    mul_pos hnn (mul_pos hh hh)
  linarith

/-- The square root in `interior_gl_points` is the reciprocal of the square root of 5. -/
theorem sqrt_fifth_eq : Real.sqrt (1.0 / 5.0) = 1 / Real.sqrt 5 := by
  have h5 : (1.0 / 5.0 : ℝ) = 1 / 5 := by norm_num
  rw [h5, Real.sqrt_div (by norm_num), Real.sqrt_one]

/-- The derivative of the Legendre polynomial of degree 3. -/
theorem legendre_3_hasDerivAt (x : ℝ) :
    HasDerivAt (fun y : ℝ => legendre_3 y) ((15 * x ^ 2 - 3) / 2) x := by
  have hid : HasDerivAt (fun y : ℝ => y) 1 x := hasDerivAt_id x
  have hd := (((hid.pow 3).const_mul 5).sub (hid.const_mul 3)).div_const 2
  unfold legendre_3
  convert hd using 1
  simp only [Nat.cast_ofNat, Nat.add_one_sub_one, mul_one]
  ring

/-- A real number squares to one fifth exactly when it is plus or minus the square root in
`interior_gl_points`. -/
theorem sq_eq_fifth_iff (x : ℝ) :
    x * x = 1 / 5 ↔ x = -Real.sqrt (1.0 / 5.0) ∨ x = Real.sqrt (1.0 / 5.0) := by
  have hs := sqrt_fifth_mul_self
  constructor
  · intro hx
    have hprod : (x + Real.sqrt (1.0 / 5.0)) * (x - Real.sqrt (1.0 / 5.0)) = 0 := by
      linear_combination hx - hs
    rcases mul_eq_zero.mp hprod with h1 | h2
    · left
      linarith
    · right
      linarith
  · rintro (h1 | h2)
    · rw [h1]
      linear_combination hs
    · rw [h2]
      exact hs

/-- For distinct vertices, the unit chord direction `coordinate_axis` is
`(cos alpha, sin alpha)`. -/
theorem coordinate_axis_eq (v0 v1 : Point2 ℝ) (hv : v0 ≠ v1) :
    coordinate_axis realMath v0 v1
      = ⟨Real.cos (alpha realMath v0 v1), Real.sin (alpha realMath v0 v1)⟩ := by
  rw [cos_alpha v0 v1 hv, sin_alpha v0 v1 hv]
  rfl

/-- For distinct vertices, `h` times `(cos alpha, sin alpha)` is the chord. -/
theorem h_mul_cos_sin (v0 v1 : Point2 ℝ) (hv : v0 ≠ v1) :
    h realMath v0 v1 * Real.cos (alpha realMath v0 v1) = v1.x - v0.x
      ∧ h realMath v0 v1 * Real.sin (alpha realMath v0 v1) = v1.y - v0.y := by
  have hh := (h_pos v0 v1 hv).ne'
  rw [cos_alpha v0 v1 hv, sin_alpha v0 v1 hv]
  constructor
  · field_simp
  · field_simp

/-- The first abscissa lies below one third and the second above two thirds. -/
theorem interior_gl_points_not_thirds :
    (interior_gl_points realMath).1 < 1 / 3 ∧ 2 / 3 < (interior_gl_points realMath).2 := by
  have hb := sqrt_fifth_bounds
  simp only [interior_gl_points, realMath_sqrt]
  generalize Real.sqrt (1.0 / 5.0) = r at hb
  constructor
  · linarith [hb.1]
  · linarith [hb.1]

/-- Multiplying the normal at vertex 0 by a non-zero factor does not change `c`. -/
theorem c_scale_normal (al lam : ℝ) (n0 : Point2 ℝ) (hlam : lam ≠ 0) :
    c realMath al (Point2.scale lam n0) = c realMath al n0 := by
  simp only [c, Point2.scale, realMath_sin, realMath_cos]
  have hN : lam * n0.y * Real.sin al + lam * n0.x * Real.cos al
      = lam * (n0.y * Real.sin al + n0.x * Real.cos al) := by ring
  have hD : lam * n0.y * Real.cos al - lam * n0.x * Real.sin al
      = lam * (n0.y * Real.cos al - n0.x * Real.sin al) := by ring
  rw [hN, hD, mul_div_mul_left _ _ hlam]

/-- Multiplying the two normals by non-zero factors does not change `b`. -/
theorem b_scale_normal (al lam mu : ℝ) (n0 n1 : Point2 ℝ) (hlam : lam ≠ 0) (hmu : mu ≠ 0) :
    b realMath al (Point2.scale lam n0) (Point2.scale mu n1) = b realMath al n0 n1 := by
  have hc := c_scale_normal al lam n0 hlam
  simp only [b, hc]
  simp only [Point2.scale, realMath_sin, realMath_cos]
  have hN : mu * n1.y * Real.sin al + mu * n1.x * Real.cos al
      = mu * (n1.y * Real.sin al + n1.x * Real.cos al) := by ring
  have hD : mu * n1.y * Real.cos al - mu * n1.x * Real.sin al
      = mu * (n1.y * Real.cos al - n1.x * Real.sin al) := by ring
  rw [hN, hD, mul_div_mul_left _ _ hmu]

/-- The reflection across the x-axis keeps distinct points distinct. -/
theorem reflect_ne (v0 v1 : Point2 ℝ) (hv : v0 ≠ v1) : reflect v0 ≠ reflect v1 := by
  intro he
  have hx := congrArg Point2.x he
  have hy := congrArg Point2.y he
  simp only [reflect] at hx hy
  exact hv (Point2.ext hx (neg_injective hy))

/-- The coefficient `c` changes sign under the reflection across the x-axis. -/
theorem c_reflect (v0 v1 n0 : Point2 ℝ) (hv : v0 ≠ v1) :
    c realMath (alpha realMath (reflect v0) (reflect v1)) (reflect n0)
      = -c realMath (alpha realMath v0 v1) n0 := by
  rw [c_eq _ _ _ (reflect_ne v0 v1 hv), c_eq _ _ _ hv]
  simp only [reflect]
  have hN : n0.x * (v1.x - v0.x) + -n0.y * (-v1.y - -v0.y)
      = n0.x * (v1.x - v0.x) + n0.y * (v1.y - v0.y) := by ring
  have hD : -n0.y * (v1.x - v0.x) - n0.x * (-v1.y - -v0.y)
      = -(n0.y * (v1.x - v0.x) - n0.x * (v1.y - v0.y)) := by ring
  rw [hN, hD, div_neg]

/-- The coefficient `b` changes sign under the reflection across the x-axis. -/
theorem b_reflect (v0 v1 n0 n1 : Point2 ℝ) (hv : v0 ≠ v1) :
    b realMath (alpha realMath (reflect v0) (reflect v1)) (reflect n0) (reflect n1)
      = -b realMath (alpha realMath v0 v1) n0 n1 := by
  rw [b_eq _ _ _ _ (reflect_ne v0 v1 hv), b_eq _ _ _ _ hv, c_reflect v0 v1 n0 hv]
  simp only [reflect]
  have hN : n1.x * (v1.x - v0.x) + -n1.y * (-v1.y - -v0.y)
      = n1.x * (v1.x - v0.x) + n1.y * (v1.y - v0.y) := by ring
  have hD : -n1.y * (v1.x - v0.x) - n1.x * (-v1.y - -v0.y)
      = -(n1.y * (v1.x - v0.x) - n1.x * (v1.y - v0.y)) := by ring
  rw [hN, hD, div_neg]
  ring

/-- Scaling by a positive factor keeps distinct points distinct. -/
theorem scale_ne (k : ℝ) (v0 v1 : Point2 ℝ) (hk : 0 < k) (hv : v0 ≠ v1) :
    Point2.scale k v0 ≠ Point2.scale k v1 := by
  intro he
  have hx := congrArg Point2.x he
  have hy := congrArg Point2.y he
  simp only [Point2.scale] at hx hy
  exact hv (Point2.ext (mul_left_cancel₀ hk.ne' hx) (mul_left_cancel₀ hk.ne' hy))

/-- The coefficient `c` does not change when the vertices are scaled by a positive factor. -/
theorem c_scale_vertices (k : ℝ) (v0 v1 n0 : Point2 ℝ) (hk : 0 < k) (hv : v0 ≠ v1) :
    c realMath (alpha realMath (Point2.scale k v0) (Point2.scale k v1)) n0
      = c realMath (alpha realMath v0 v1) n0 := by
  rw [c_eq _ _ _ (scale_ne k v0 v1 hk hv), c_eq _ _ _ hv]
  simp only [Point2.scale]
  have hN : n0.x * (k * v1.x - k * v0.x) + n0.y * (k * v1.y - k * v0.y)
      = k * (n0.x * (v1.x - v0.x) + n0.y * (v1.y - v0.y)) := by ring
  have hD : n0.y * (k * v1.x - k * v0.x) - n0.x * (k * v1.y - k * v0.y)
      = k * (n0.y * (v1.x - v0.x) - n0.x * (v1.y - v0.y)) := by ring
  rw [hN, hD, mul_div_mul_left _ _ hk.ne']

/-- The coefficient `b` does not change when the vertices are scaled by a positive factor. -/
theorem b_scale_vertices (k : ℝ) (v0 v1 n0 n1 : Point2 ℝ) (hk : 0 < k) (hv : v0 ≠ v1) :
    b realMath (alpha realMath (Point2.scale k v0) (Point2.scale k v1)) n0 n1
      = b realMath (alpha realMath v0 v1) n0 n1 := by
  rw [b_eq _ _ _ _ (scale_ne k v0 v1 hk hv), b_eq _ _ _ _ hv, c_scale_vertices k v0 v1 n0 hk hv]
  simp only [Point2.scale]
  have hN : n1.x * (k * v1.x - k * v0.x) + n1.y * (k * v1.y - k * v0.y)
      = k * (n1.x * (v1.x - v0.x) + n1.y * (v1.y - v0.y)) := by ring
  have hD : n1.y * (k * v1.x - k * v0.x) - n1.x * (k * v1.y - k * v0.y)
      = k * (n1.y * (v1.x - v0.x) - n1.x * (v1.y - v0.y)) := by ring
  rw [hN, hD, mul_div_mul_left _ _ hk.ne']

end RealLemmas

/-! ## Tangent matching -/

/-- C1. For a boundary edge with distinct vertices and non-zero denominators, the local
tangent `(1, c)` rotated by `alpha` is orthogonal to the normal at vertex 0, the local tangent
`(1, -b - 2c)` rotated by `alpha` is orthogonal to the normal at vertex 1, and these two
slopes are the derivatives of the cubic `s_t b c` at `t = 0` and at `t = 1`. -/
theorem tangent_matching (v0 v1 n0 n1 : Point2 ℝ) (_hv : v0 ≠ v1)
    (hd0 : denominator realMath (alpha realMath v0 v1) n0 ≠ 0)
    (hd1 : denominator realMath (alpha realMath v0 v1) n1 ≠ 0) :
    ((rotate realMath (alpha realMath v0 v1)
        ⟨1, c realMath (alpha realMath v0 v1) n0⟩).dot n0 = 0
      ∧ (rotate realMath (alpha realMath v0 v1)
        ⟨1, -(b realMath (alpha realMath v0 v1) n0 n1)
              - 2 * c realMath (alpha realMath v0 v1) n0⟩).dot n1 = 0)
    ∧ HasDerivAt (fun t => s_t (b realMath (alpha realMath v0 v1) n0 n1)
          (c realMath (alpha realMath v0 v1) n0) t)
        (c realMath (alpha realMath v0 v1) n0) 0
    ∧ HasDerivAt (fun t => s_t (b realMath (alpha realMath v0 v1) n0 n1)
          (c realMath (alpha realMath v0 v1) n0) t)
        (-(b realMath (alpha realMath v0 v1) n0 n1)
          - 2 * c realMath (alpha realMath v0 v1) n0) 1 :=
  ⟨⟨dot_rotate_c _ n0 hd0, dot_rotate_b _ n0 n1 hd1⟩,
    s_t_hasDerivAt_zero _ _, s_t_hasDerivAt_one _ _⟩

/-- C1, at the edge from `(1, 0)` to `(0, 1)` with the normals `(1, 0)` and `(0, 1)`. -/
theorem tangent_matching_witness :
    ((rotate realMath (alpha realMath ⟨1, 0⟩ ⟨0, 1⟩)
        ⟨1, c realMath (alpha realMath ⟨1, 0⟩ ⟨0, 1⟩) ⟨1, 0⟩⟩).dot ⟨1, 0⟩ = 0
      ∧ (rotate realMath (alpha realMath ⟨1, 0⟩ ⟨0, 1⟩)
        ⟨1, -(b realMath (alpha realMath ⟨1, 0⟩ ⟨0, 1⟩) ⟨1, 0⟩ ⟨0, 1⟩)
              - 2 * c realMath (alpha realMath ⟨1, 0⟩ ⟨0, 1⟩) ⟨1, 0⟩⟩).dot ⟨0, 1⟩ = 0)
    ∧ HasDerivAt (fun t => s_t (b realMath (alpha realMath ⟨1, 0⟩ ⟨0, 1⟩) ⟨1, 0⟩ ⟨0, 1⟩)
          (c realMath (alpha realMath ⟨1, 0⟩ ⟨0, 1⟩) ⟨1, 0⟩) t)
        (c realMath (alpha realMath ⟨1, 0⟩ ⟨0, 1⟩) ⟨1, 0⟩) 0
    ∧ HasDerivAt (fun t => s_t (b realMath (alpha realMath ⟨1, 0⟩ ⟨0, 1⟩) ⟨1, 0⟩ ⟨0, 1⟩)
          (c realMath (alpha realMath ⟨1, 0⟩ ⟨0, 1⟩) ⟨1, 0⟩) t)
        (-(b realMath (alpha realMath ⟨1, 0⟩ ⟨0, 1⟩) ⟨1, 0⟩ ⟨0, 1⟩)
          - 2 * c realMath (alpha realMath ⟨1, 0⟩ ⟨0, 1⟩) ⟨1, 0⟩) 1 :=
  tangent_matching ⟨1, 0⟩ ⟨0, 1⟩ ⟨1, 0⟩ ⟨0, 1⟩ (by simp)
    (by
      have hp := h_pos ⟨1, 0⟩ ⟨0, 1⟩ (by simp)
      rw [denominator_eq _ _ _ (by simp)]
      simp only [sub_zero, zero_sub, zero_mul, mul_neg, mul_one, one_mul, neg_neg, zero_add]
      exact div_ne_zero (by norm_num) hp.ne')
    (by
      have hp := h_pos ⟨1, 0⟩ ⟨0, 1⟩ (by simp)
      rw [denominator_eq _ _ _ (by simp)]
      simp only [sub_zero, zero_sub, zero_mul, mul_neg, mul_one, one_mul, neg_neg, zero_add]
      exact div_ne_zero (by norm_num) hp.ne')

/-! ## Tangent continuity -/

/-- C2. Two boundary edges of non-zero length, `A` from `a0` to `p` and `B` from `p` to `b1`,
that are given the same normal `n` at the shared vertex `p` (all denominators non-zero): the
derivative of the fitted cubic of `A` at `t = 1` and the derivative of the fitted cubic of
`B` at `t = 0` are the global tangents below, and their cross product is 0. -/
theorem tangent_continuity (a0 p b1 nA n nB : Point2 ℝ) (_hA : a0 ≠ p) (_hB : p ≠ b1)
    (_hdA0 : denominator realMath (alpha realMath a0 p) nA ≠ 0)
    (hdA1 : denominator realMath (alpha realMath a0 p) n ≠ 0)
    (hdB0 : denominator realMath (alpha realMath p b1) n ≠ 0)
    (_hdB1 : denominator realMath (alpha realMath p b1) nB ≠ 0) :
    (HasDerivAt (fun t => (curve realMath a0 p nA n t).x)
        (global_tangent realMath a0 p
          (-(b realMath (alpha realMath a0 p) nA n) - 2 * c realMath (alpha realMath a0 p) nA)).x 1
      ∧ HasDerivAt (fun t => (curve realMath a0 p nA n t).y)
        (global_tangent realMath a0 p
          (-(b realMath (alpha realMath a0 p) nA n) - 2 * c realMath (alpha realMath a0 p) nA)).y 1)
    ∧ (HasDerivAt (fun t => (curve realMath p b1 n nB t).x)
        (global_tangent realMath p b1 (c realMath (alpha realMath p b1) n)).x 0
      ∧ HasDerivAt (fun t => (curve realMath p b1 n nB t).y)
        (global_tangent realMath p b1 (c realMath (alpha realMath p b1) n)).y 0)
    ∧ (global_tangent realMath a0 p
          (-(b realMath (alpha realMath a0 p) nA n)
            - 2 * c realMath (alpha realMath a0 p) nA)).cross
        (global_tangent realMath p b1 (c realMath (alpha realMath p b1) n)) = 0 := by
  refine ⟨⟨curve_x_hasDerivAt _ _ _ _ _ _ (s_t_hasDerivAt_one _ _),
    curve_y_hasDerivAt _ _ _ _ _ _ (s_t_hasDerivAt_one _ _)⟩,
    ⟨curve_x_hasDerivAt _ _ _ _ _ _ (s_t_hasDerivAt_zero _ _),
    curve_y_hasDerivAt _ _ _ _ _ _ (s_t_hasDerivAt_zero _ _)⟩, ?_⟩
  apply cross_eq_zero_of_dot_eq_zero _ _ n (normal_ne_zero _ n hdA1)
  · rw [global_tangent, dot_scale, dot_rotate_b _ nA n hdA1, mul_zero]
  · rw [global_tangent, dot_scale, dot_rotate_c _ n hdB0, mul_zero]

/-- C2, at two edges of a square inscribed in the unit circle, from `(1, 0)` to `(0, 1)` and
from `(0, 1)` to `(-1, 0)`, with the radial normals. -/
theorem tangent_continuity_witness :
    (global_tangent realMath ⟨1, 0⟩ ⟨0, 1⟩
          (-(b realMath (alpha realMath ⟨1, 0⟩ ⟨0, 1⟩) ⟨1, 0⟩ ⟨0, 1⟩)
            - 2 * c realMath (alpha realMath ⟨1, 0⟩ ⟨0, 1⟩) ⟨1, 0⟩)).cross
        (global_tangent realMath ⟨0, 1⟩ ⟨-1, 0⟩
          (c realMath (alpha realMath ⟨0, 1⟩ ⟨-1, 0⟩) ⟨0, 1⟩)) = 0 :=
  (tangent_continuity ⟨1, 0⟩ ⟨0, 1⟩ ⟨-1, 0⟩ ⟨1, 0⟩ ⟨0, 1⟩ ⟨-1, 0⟩ (by simp) (by simp)
    (denominator_ne_zero _ _ _ (by simp) (by norm_num))
    (denominator_ne_zero _ _ _ (by simp) (by norm_num))
    (denominator_ne_zero _ _ _ (by simp) (by norm_num))
    (denominator_ne_zero _ _ _ (by simp) (by norm_num))).2.2

/-! ## Straight edges -/

/-- C3. For an edge that is not at the boundary, the loop body pushes back exactly the two
points `(1 - t1) v0 + t1 v1` and `(1 - t2) v0 + t2 v1`, in that order, with
`t1 = 0.5 - 0.5 sqrt(1/5)` and `t2 = 0.5 + 0.5 sqrt(1/5)`; when the edge goes from `(0, 0)`
to `(1, 0)` these are `(t1, 0)` and `(t2, 0)`, with `t1` within `1e-5` of `0.27639` and `t2`
within `1e-5` of `0.72361`. -/
theorem straight_edge_fallback (line : Line ℝ) (hnb : line.at_boundary = false) :
    line_support_points realMath line
      = [⟨(1 - (0.5 - 0.5 * Real.sqrt (1 / 5))) * (line.vertex 0).x
            + (0.5 - 0.5 * Real.sqrt (1 / 5)) * (line.vertex 1).x,
          (1 - (0.5 - 0.5 * Real.sqrt (1 / 5))) * (line.vertex 0).y
            + (0.5 - 0.5 * Real.sqrt (1 / 5)) * (line.vertex 1).y⟩,
         ⟨(1 - (0.5 + 0.5 * Real.sqrt (1 / 5))) * (line.vertex 0).x
            + (0.5 + 0.5 * Real.sqrt (1 / 5)) * (line.vertex 1).x,
          (1 - (0.5 + 0.5 * Real.sqrt (1 / 5))) * (line.vertex 0).y
            + (0.5 + 0.5 * Real.sqrt (1 / 5)) * (line.vertex 1).y⟩]
    ∧ (line.vertex 0 = ⟨0, 0⟩ → line.vertex 1 = ⟨1, 0⟩ →
        line_support_points realMath line
          = [⟨0.5 - 0.5 * Real.sqrt (1 / 5), 0⟩, ⟨0.5 + 0.5 * Real.sqrt (1 / 5), 0⟩]
        ∧ |0.5 - 0.5 * Real.sqrt (1 / 5) - 0.27639| < 1e-5
        ∧ |0.5 + 0.5 * Real.sqrt (1 / 5) - 0.72361| < 1e-5) := by
  have hlit : (1.0 / 5.0 : ℝ) = 1 / 5 := by norm_num
  have hone : (1.0 : ℝ) = 1 := by norm_num
  have hfive : (5.0 : ℝ) = 5 := by norm_num
  have hpts : line_support_points realMath line
      = [⟨(1 - (0.5 - 0.5 * Real.sqrt (1 / 5))) * (line.vertex 0).x
            + (0.5 - 0.5 * Real.sqrt (1 / 5)) * (line.vertex 1).x,
          (1 - (0.5 - 0.5 * Real.sqrt (1 / 5))) * (line.vertex 0).y
            + (0.5 - 0.5 * Real.sqrt (1 / 5)) * (line.vertex 1).y⟩,
         ⟨(1 - (0.5 + 0.5 * Real.sqrt (1 / 5))) * (line.vertex 0).x
            + (0.5 + 0.5 * Real.sqrt (1 / 5)) * (line.vertex 1).x,
          (1 - (0.5 + 0.5 * Real.sqrt (1 / 5))) * (line.vertex 0).y
            + (0.5 + 0.5 * Real.sqrt (1 / 5)) * (line.vertex 1).y⟩] := by
    simp only [line_support_points, hnb, straight_points, interior_gl_points, Point2.scale,
      Point2.add, realMath_sqrt, hone, hfive, Bool.false_eq_true, if_false]
  refine ⟨hpts, fun h0 h1 => ⟨?_, ?_, ?_⟩⟩
  · rw [hpts, h0, h1]
    simp
  · have hb := sqrt_fifth_bounds
    rw [hlit] at hb
    generalize Real.sqrt (1 / 5) = r at hb
    rw [abs_lt]
    constructor <;> norm_num <;> linarith [hb.1, hb.2]
  · have hb := sqrt_fifth_bounds
    rw [hlit] at hb
    generalize Real.sqrt (1 / 5) = r at hb
    rw [abs_lt]
    constructor <;> norm_num <;> linarith [hb.1, hb.2]

/-- C3, at the edge from `(0, 0)` to `(1, 0)`, not at the boundary. -/
theorem straight_edge_fallback_witness :
    line_support_points realMath ⟨![⟨0, 0⟩, ⟨1, 0⟩], false, ![⟨0, 0⟩, ⟨0, 0⟩]⟩
        = [⟨0.5 - 0.5 * Real.sqrt (1 / 5), 0⟩, ⟨0.5 + 0.5 * Real.sqrt (1 / 5), 0⟩]
      ∧ |0.5 - 0.5 * Real.sqrt (1 / 5) - 0.27639| < 1e-5
      ∧ |0.5 + 0.5 * Real.sqrt (1 / 5) - 0.72361| < 1e-5 :=
  (straight_edge_fallback ⟨![⟨0, 0⟩, ⟨1, 0⟩], false, ![⟨0, 0⟩, ⟨0, 0⟩]⟩ rfl).2 rfl rfl

/-! ## Equivariance and symmetry of the boundary branch -/

/-- C4. For every rotation (by an angle `th`), every translation `T` and every boundary edge
with distinct vertices and non-zero denominators, the boundary branch run on the moved
vertices and the rotated normals pushes back exactly the moved points of the original
edge. -/
theorem rigid_motion_equivariance (th : ℝ) (T v0 v1 n0 n1 : Point2 ℝ) (hv : v0 ≠ v1)
    (_hd0 : denominator realMath (alpha realMath v0 v1) n0 ≠ 0)
    (_hd1 : denominator realMath (alpha realMath v0 v1) n1 ≠ 0) :
    boundary_points realMath ((rotate realMath th v0).add T) ((rotate realMath th v1).add T)
        (rotate realMath th n0) (rotate realMath th n1)
      = (boundary_points realMath v0 v1 n0 n1).map (fun p => (rotate realMath th p).add T) := by
  rw [boundary_points_eq _ _ _ _ (rigid_ne th T v0 v1 hv), boundary_points_eq _ _ _ _ hv,
    c_rigid th T v0 v1 n0 hv, b_rigid th T v0 v1 n0 n1 hv]
  simp only [List.map, rotate, Point2.add, realMath_sin, realMath_cos]
  refine congrArg₂ List.cons ?_ (congrArg₂ List.cons ?_ rfl)
  · ext
    · simp only
      ring
    · simp only
      ring
  · ext
    · simp only
      ring
    · simp only
      ring

/-- C5. For a boundary edge with distinct vertices and non-zero denominators, the points
`q1`, `q2` pushed back for the edge taken from vertex 1 to vertex 0 (normals exchanged
likewise) are the points `p1`, `p2` of the original edge in the other order. -/
theorem endpoint_order_symmetry (v0 v1 n0 n1 : Point2 ℝ) (hv : v0 ≠ v1)
    (_hd0 : denominator realMath (alpha realMath v0 v1) n0 ≠ 0)
    (_hd1 : denominator realMath (alpha realMath v0 v1) n1 ≠ 0) :
    ∃ p1 p2 : Point2 ℝ, boundary_points realMath v0 v1 n0 n1 = [p1, p2]
      ∧ boundary_points realMath v1 v0 n1 n0 = [p2, p1] := by
  refine ⟨_, _, boundary_points_eq v0 v1 n0 n1 hv, ?_⟩
  rw [boundary_points_eq _ _ _ _ hv.symm, c_swap v0 v1 n0 n1 hv, b_swap v0 v1 n0 n1 hv]
  have h2 : (interior_gl_points realMath).2 = 1 - (interior_gl_points realMath).1 := by
    have hsum := interior_gl_points_sum
    linarith
  rw [h2]
  simp only [s_t]
  refine congrArg₂ List.cons ?_ (congrArg₂ List.cons ?_ rfl)
  · ext
    · simp only
      ring
    · simp only
      ring
  · ext
    · simp only
      ring
    · simp only
      ring

/-- C4, at the edge from `(1, 0)` to `(0, 1)` with the normals `(1, 0)` and `(0, 1)`, rotated
by a quarter turn and shifted by `(2, 3)`. -/
theorem rigid_motion_equivariance_witness :
    boundary_points realMath ((rotate realMath (Real.pi / 2) ⟨1, 0⟩).add ⟨2, 3⟩)
        ((rotate realMath (Real.pi / 2) ⟨0, 1⟩).add ⟨2, 3⟩)
        (rotate realMath (Real.pi / 2) ⟨1, 0⟩) (rotate realMath (Real.pi / 2) ⟨0, 1⟩)
      = (boundary_points realMath ⟨1, 0⟩ ⟨0, 1⟩ ⟨1, 0⟩ ⟨0, 1⟩).map
          (fun p => (rotate realMath (Real.pi / 2) p).add ⟨2, 3⟩) :=
  rigid_motion_equivariance (Real.pi / 2) ⟨2, 3⟩ ⟨1, 0⟩ ⟨0, 1⟩ ⟨1, 0⟩ ⟨0, 1⟩ (by simp)
    (denominator_ne_zero _ _ _ (by simp) (by norm_num))
    (denominator_ne_zero _ _ _ (by simp) (by norm_num))

/-- C5, at the edge from `(1, 0)` to `(0, 1)` with the normals `(1, 0)` and `(0, 1)`. -/
theorem endpoint_order_symmetry_witness :
    ∃ p1 p2 : Point2 ℝ, boundary_points realMath ⟨1, 0⟩ ⟨0, 1⟩ ⟨1, 0⟩ ⟨0, 1⟩ = [p1, p2]
      ∧ boundary_points realMath ⟨0, 1⟩ ⟨1, 0⟩ ⟨0, 1⟩ ⟨1, 0⟩ = [p2, p1] :=
  endpoint_order_symmetry ⟨1, 0⟩ ⟨0, 1⟩ ⟨1, 0⟩ ⟨0, 1⟩ (by simp)
    (denominator_ne_zero _ _ _ (by simp) (by norm_num))
    (denominator_ne_zero _ _ _ (by simp) (by norm_num))

/-! ## The quarter circle -/

/-- C6, refuted as stated: for the edge from `(1, 0)` to `(0, 1)` with the normals `(1, 0)`
and `(0, 1)`, it is not the case that every point pushed back by the boundary branch has a
Euclidean norm within `0.01` of `1`. -/
theorem arc_approximation_counterexample :
    ¬ (∀ p ∈ boundary_points realMath ⟨1, 0⟩ ⟨0, 1⟩ ⟨1, 0⟩ ⟨0, 1⟩,
        |Point2.norm realMath p - 1| ≤ 0.01) := by
  intro hall
  have hmem : ∀ r ∈ (boundary_points realMath ⟨1, 0⟩ ⟨0, 1⟩ ⟨1, 0⟩ ⟨0, 1⟩).map
      (Point2.norm realMath), |r - 1| ≤ 0.01 := by
    intro r hr
    obtain ⟨p, hp, rfl⟩ := List.mem_map.mp hr
    exact hall p hp
  rw [arc_points_norm] at hmem
  have h1 := hmem (Real.sqrt (27 / 25)) (by simp)
  have hb := sqrt_arc_bounds
  generalize Real.sqrt (27 / 25) = r at h1 hb
  rw [abs_le] at h1
  linarith [h1.2, hb.1]

/-- C6, amended: for the edge from `(1, 0)` to `(0, 1)` with the normals `(1, 0)` and
`(0, 1)`, both points pushed back by the boundary branch have squared norm `27/25`, so their
Euclidean norm is `sqrt (27/25)`, which lies between `1.039` and `1.04`: within `0.04` of `1`
and further than `0.039` from it. -/
theorem arc_approximation :
    (boundary_points realMath ⟨1, 0⟩ ⟨0, 1⟩ ⟨1, 0⟩ ⟨0, 1⟩).map (fun p => p.dot p)
        = [27 / 25, 27 / 25]
      ∧ (boundary_points realMath ⟨1, 0⟩ ⟨0, 1⟩ ⟨1, 0⟩ ⟨0, 1⟩).map (Point2.norm realMath)
        = [Real.sqrt (27 / 25), Real.sqrt (27 / 25)]
      ∧ |Real.sqrt (27 / 25) - 1| < 0.04
      ∧ 0.039 < |Real.sqrt (27 / 25) - 1| := by
  have hb := sqrt_arc_bounds
  refine ⟨arc_points_dot, arc_points_norm, ?_, ?_⟩
  · generalize Real.sqrt (27 / 25) = r at hb
    rw [abs_of_pos (by linarith [hb.1])]
    linarith [hb.2]
  · generalize Real.sqrt (27 / 25) = r at hb
    rw [abs_of_pos (by linarith [hb.1])]
    linarith [hb.1]

/-! ## Normals perpendicular to the chord -/

/-- C7. For a boundary edge with distinct vertices whose two normals are non-zero and
perpendicular to the chord, both denominators are non-zero, the fit gives `b = 0` and
`c = 0`, and the boundary branch pushes back the same two points as the straight-edge
branch. -/
theorem degenerate_boundary_agreement (v0 v1 n0 n1 : Point2 ℝ) (hv : v0 ≠ v1)
    (hn0 : n0.x ≠ 0 ∨ n0.y ≠ 0) (hn1 : n1.x ≠ 0 ∨ n1.y ≠ 0)
    (hp0 : n0.dot (coordinate_vector v0 v1) = 0)
    (hp1 : n1.dot (coordinate_vector v0 v1) = 0) :
    (denominator realMath (alpha realMath v0 v1) n0 ≠ 0
      ∧ denominator realMath (alpha realMath v0 v1) n1 ≠ 0)
    ∧ b realMath (alpha realMath v0 v1) n0 n1 = 0
    ∧ c realMath (alpha realMath v0 v1) n0 = 0
    ∧ boundary_points realMath v0 v1 n0 n1 = straight_points realMath v0 v1 := by
  have hc : c realMath (alpha realMath v0 v1) n0 = 0 := by
    simp only [Point2.dot, coordinate_vector, Point2.sub] at hp0
    rw [c_eq _ _ _ hv, hp0]
    simp
  have hb : b realMath (alpha realMath v0 v1) n0 n1 = 0 := by
    simp only [Point2.dot, coordinate_vector, Point2.sub] at hp1
    rw [b_eq _ _ _ _ hv, hc, hp1]
    simp
  refine ⟨⟨denominator_ne_zero _ _ _ hv (cross_ne_zero_of_dot_eq_zero _ _ _ hv hn0 hp0),
    denominator_ne_zero _ _ _ hv (cross_ne_zero_of_dot_eq_zero _ _ _ hv hn1 hp1)⟩, hb, hc, ?_⟩
  rw [boundary_points_eq _ _ _ _ hv, hc, hb]
  simp only [straight_points, s_t, Point2.scale, Point2.add]
  refine congrArg₂ List.cons ?_ (congrArg₂ List.cons ?_ rfl)
  · ext
    · simp only
      ring
    · simp only
      ring
  · ext
    · simp only
      ring
    · simp only
      ring

/-- C7, at the edge from `(0, 0)` to `(1, 0)` with the normal `(0, 1)` at both ends. -/
theorem degenerate_boundary_agreement_witness :
    b realMath (alpha realMath ⟨0, 0⟩ ⟨1, 0⟩) ⟨0, 1⟩ ⟨0, 1⟩ = 0
    ∧ c realMath (alpha realMath ⟨0, 0⟩ ⟨1, 0⟩) ⟨0, 1⟩ = 0
    ∧ boundary_points realMath ⟨0, 0⟩ ⟨1, 0⟩ ⟨0, 1⟩ ⟨0, 1⟩
        = straight_points realMath ⟨0, 0⟩ ⟨1, 0⟩ :=
  (degenerate_boundary_agreement ⟨0, 0⟩ ⟨1, 0⟩ ⟨0, 1⟩ ⟨0, 1⟩ (by simp) (Or.inr one_ne_zero)
    (Or.inr one_ne_zero) (by simp [Point2.dot, coordinate_vector, Point2.sub])
    (by simp [Point2.dot, coordinate_vector, Point2.sub])).2

/-! ## The functions that only raise -/

/-- C8. For every cell and every output vector, `MappingC1<1>::add_line_support_points`,
`MappingC1<1>::add_quad_support_points`, `MappingC1<2>::add_quad_support_points` and the
generic `add_quad_support_points` each raise an exception and leave the output vector as it
was. -/
theorem unsupported_configurations_fault {C P : Type} (cell : C) (a : List P) :
    ((add_line_support_points_1 cell a).raised ≠ none
      ∧ (add_line_support_points_1 cell a).a = a)
    ∧ ((add_quad_support_points_1 cell a).raised ≠ none
      ∧ (add_quad_support_points_1 cell a).a = a)
    ∧ ((add_quad_support_points_2 cell a).raised ≠ none
      ∧ (add_quad_support_points_2 cell a).a = a)
    ∧ ((add_quad_support_points_generic cell a).raised ≠ none
      ∧ (add_quad_support_points_generic cell a).a = a) := by
  refine ⟨⟨?_, rfl⟩, ⟨?_, rfl⟩, ⟨?_, rfl⟩, ⟨?_, rfl⟩⟩ <;>
    simp [add_line_support_points_1, add_quad_support_points_1, add_quad_support_points_2,
      add_quad_support_points_generic, Assert, DEAL_II_NOT_IMPLEMENTED]

/-- C9, refuted as stated: the exception raised by `MappingC1<2>::add_quad_support_points` is
not the one raised by the generic `add_quad_support_points`, and it is not the one raised by
`MappingC1<1>::add_line_support_points` either. -/
theorem single_fault_kind_counterexample :
    (add_quad_support_points_2 () ([] : List Unit)).raised
        ≠ (add_quad_support_points_generic () ([] : List Unit)).raised
      ∧ (add_quad_support_points_2 () ([] : List Unit)).raised
        ≠ (add_line_support_points_1 () ([] : List Unit)).raised := by
  decide

/-- C9, amended: `add_quad_support_points` raises `ExcImpossibleInDim(2)` in the
specialization for `dim = 2` and `ExcNotImplemented` in the generic instantiation;
`MappingC1<1>::add_line_support_points` raises `ExcImpossibleInDim(1)`, as does
`MappingC1<1>::add_quad_support_points`. -/
theorem fault_kinds {C P : Type} (cell : C) (a : List P) :
    (add_quad_support_points_2 cell a).raised = some (Exc.ExcImpossibleInDim 2)
    ∧ (add_quad_support_points_generic cell a).raised = some Exc.ExcNotImplemented
    ∧ (add_line_support_points_1 cell a).raised = some (Exc.ExcImpossibleInDim 1)
    ∧ (add_quad_support_points_1 cell a).raised = some (Exc.ExcImpossibleInDim 1) :=
  ⟨rfl, rfl, rfl, rfl⟩

/-! ## The loop over the lines of a cell -/

/-- C10. For every two-dimensional cell and every initial vector `a`,
`MappingC1<2>::add_line_support_points` returns without an exception and leaves `a` followed
by exactly 8 points: for the lines 0, 1, 2, 3 in this order, the point of the line at `t1`
and then its point at `t2`, each on the fitted cubic when the line is at the boundary and on
the straight segment otherwise, computed from the vertices and normals of that line alone. -/
theorem per_cell_orchestration (cell : Cell ℝ) (a : List (Point2 ℝ)) :
    (add_line_support_points_2 realMath cell a).raised = none
    ∧ (add_line_support_points_2 realMath cell a).a
      = a ++ [spec_edge_point realMath (cell.line 0) (interior_gl_points realMath).1,
              spec_edge_point realMath (cell.line 0) (interior_gl_points realMath).2,
              spec_edge_point realMath (cell.line 1) (interior_gl_points realMath).1,
              spec_edge_point realMath (cell.line 1) (interior_gl_points realMath).2,
              spec_edge_point realMath (cell.line 2) (interior_gl_points realMath).1,
              spec_edge_point realMath (cell.line 2) (interior_gl_points realMath).2,
              spec_edge_point realMath (cell.line 3) (interior_gl_points realMath).1,
              spec_edge_point realMath (cell.line 3) (interior_gl_points realMath).2] := by
  have hone : (1.0 : ℝ) = 1 := by norm_num
  have hline : ∀ line : Line ℝ, line_support_points realMath line
      = [spec_edge_point realMath line (interior_gl_points realMath).1,
         spec_edge_point realMath line (interior_gl_points realMath).2] := by
    intro line
    cases hb : line.at_boundary
    · simp only [line_support_points, spec_edge_point, straight_points, hb, hone,
        Bool.false_eq_true, if_false]
    · simp only [line_support_points, spec_edge_point, hb, if_true]
      rfl
  refine ⟨rfl, ?_⟩
  simp only [add_line_support_points_2, lines_per_cell, line_loop, hline, List.append_assoc,
    List.cons_append, List.nil_append, zero_add, Nat.reduceAdd]

/-! ## The abscissae -/

/-- C11. The two entries `t1`, `t2` of `interior_gl_points` are `0.5 - 0.5 sqrt(1/5)` and
`0.5 + 0.5 sqrt(1/5)`; they are exactly the two roots of `5 t² - 5 t + 1`; the derivative of
the Legendre polynomial of degree 3 vanishes exactly at `-1/sqrt 5` and `1/sqrt 5`, and `t1`,
`t2` are the images of these under `t = (1 + x) / 2`; `0 < t1 < t2 < 1`, `t1 + t2 = 1`, and
`t1`, `t2` are within `1e-5` of `0.27639` and `0.72361`. -/
theorem interior_gl_points_gauss_lobatto :
    ((interior_gl_points realMath).1 = 0.5 - 0.5 * Real.sqrt (1 / 5)
      ∧ (interior_gl_points realMath).2 = 0.5 + 0.5 * Real.sqrt (1 / 5))
    ∧ (∀ t : ℝ, 5 * t ^ 2 - 5 * t + 1 = 0
        ↔ t = (interior_gl_points realMath).1 ∨ t = (interior_gl_points realMath).2)
    ∧ (∀ x : ℝ, deriv (fun y : ℝ => legendre_3 y) x = 0
        ↔ x = -(1 / Real.sqrt 5) ∨ x = 1 / Real.sqrt 5)
    ∧ ((interior_gl_points realMath).1 = (1 + -(1 / Real.sqrt 5)) / 2
      ∧ (interior_gl_points realMath).2 = (1 + 1 / Real.sqrt 5) / 2)
    ∧ (0 < (interior_gl_points realMath).1
      ∧ (interior_gl_points realMath).1 < (interior_gl_points realMath).2
      ∧ (interior_gl_points realMath).2 < 1)
    ∧ (interior_gl_points realMath).1 + (interior_gl_points realMath).2 = 1
    ∧ |(interior_gl_points realMath).1 - 0.27639| < 1e-5
    ∧ |(interior_gl_points realMath).2 - 0.72361| < 1e-5 := by
  have hlit : (1.0 / 5.0 : ℝ) = 1 / 5 := by norm_num
  have hb := sqrt_fifth_bounds
  have he := sqrt_fifth_eq
  have hroot := sq_eq_fifth_iff
  simp only [interior_gl_points, realMath_sqrt]
  refine ⟨⟨by rw [hlit], by rw [hlit]⟩, ?_, ?_, ⟨?_, ?_⟩, ⟨?_, ?_, ?_⟩, ?_, ?_, ?_⟩
  · intro t
    have hq : 5 * t ^ 2 - 5 * t + 1 = 0 ↔ (2 * t - 1) * (2 * t - 1) = 1 / 5 := by
      constructor
      · intro h0
        linear_combination (4 / 5 : ℝ) * h0
      · intro h0
        linear_combination (5 / 4 : ℝ) * h0
    rw [hq, hroot (2 * t - 1)]
    generalize Real.sqrt (1.0 / 5.0) = r
    constructor
    · rintro (h1 | h2)
      · left
        linarith
      · right
        linarith
    · rintro (h1 | h2)
      · left
        linarith
      · right
        linarith
  · intro x
    rw [(legendre_3_hasDerivAt x).deriv, ← he]
    have hq : (15 * x ^ 2 - 3) / 2 = 0 ↔ x * x = 1 / 5 := by
      constructor
      · intro h0
        linear_combination (2 / 15 : ℝ) * h0
      · intro h0
        linear_combination (15 / 2 : ℝ) * h0
    rw [hq, hroot x]
  · rw [← he]
    ring
  · rw [← he]
    ring
  · generalize Real.sqrt (1.0 / 5.0) = r at hb
    linarith [hb.2]
  · generalize Real.sqrt (1.0 / 5.0) = r at hb
    linarith [hb.1]
  · generalize Real.sqrt (1.0 / 5.0) = r at hb
    linarith [hb.1]
  · ring
  · generalize Real.sqrt (1.0 / 5.0) = r at hb
    rw [abs_lt]
    constructor <;> linarith [hb.1, hb.2]
  · generalize Real.sqrt (1.0 / 5.0) = r at hb
    rw [abs_lt]
    constructor <;> linarith [hb.1, hb.2]

/-! ## The fitted curve and the chord -/

/-- C12. For all `b`, `c`, `t` the Horner expression equals `a t³ + b t² + c t + d` with
`a = -b - c` and `d = 0`, and it vanishes at `t = 0` and at `t = 1`; for an edge with distinct
vertices, the map of the inner loop (rotate by `alpha`, scale by `h`, shift by `v0`) sends the
unit point `(t, s(t))` to `v0` at `t = 0` and to `v1` at `t = 1`, whatever `b` and `c` are, in
particular for the fitted cubic. -/
theorem curve_interpolates_vertices (v0 v1 n0 n1 : Point2 ℝ) (hv : v0 ≠ v1) :
    (∀ b c t : ℝ, s_t b c t = (-b - c) * t ^ 3 + b * t ^ 2 + c * t + 0)
    ∧ (∀ b c : ℝ, s_t b c 0 = 0 ∧ s_t b c 1 = 0)
    ∧ (∀ b c : ℝ,
        real_point realMath (alpha realMath v0 v1) (h realMath v0 v1) v0 ⟨0, s_t b c 0⟩ = v0
        ∧ real_point realMath (alpha realMath v0 v1) (h realMath v0 v1) v0 ⟨1, s_t b c 1⟩ = v1)
    ∧ curve realMath v0 v1 n0 n1 0 = v0
    ∧ curve realMath v0 v1 n0 n1 1 = v1 := by
  have hs0 : ∀ b c : ℝ, s_t b c 0 = 0 := by
    intro b c
    simp only [s_t]
    ring
  have hs1 : ∀ b c : ℝ, s_t b c 1 = 0 := by
    intro b c
    simp only [s_t]
    ring
  have hr0 : ∀ b c : ℝ,
      real_point realMath (alpha realMath v0 v1) (h realMath v0 v1) v0 ⟨0, s_t b c 0⟩ = v0 := by
    intro b c
    rw [real_point_eq v0 v1 _ hv, hs0]
    ext
    · simp only
      ring
    · simp only
      ring
  have hr1 : ∀ b c : ℝ,
      real_point realMath (alpha realMath v0 v1) (h realMath v0 v1) v0 ⟨1, s_t b c 1⟩ = v1 := by
    intro b c
    rw [real_point_eq v0 v1 _ hv, hs1]
    ext
    · simp only
      ring
    · simp only
      ring
  refine ⟨?_, fun b c => ⟨hs0 b c, hs1 b c⟩, fun b c => ⟨hr0 b c, hr1 b c⟩, hr0 _ _, hr1 _ _⟩
  intro b c t
  simp only [s_t]
  ring

/-- C12, at the edge from `(1, 0)` to `(0, 1)` with the normals `(1, 0)` and `(0, 1)`. -/
theorem curve_interpolates_vertices_witness :
    curve realMath ⟨1, 0⟩ ⟨0, 1⟩ ⟨1, 0⟩ ⟨0, 1⟩ 0 = ⟨1, 0⟩
    ∧ curve realMath ⟨1, 0⟩ ⟨0, 1⟩ ⟨1, 0⟩ ⟨0, 1⟩ 1 = ⟨0, 1⟩ :=
  (curve_interpolates_vertices ⟨1, 0⟩ ⟨0, 1⟩ ⟨1, 0⟩ ⟨0, 1⟩ (by simp)).2.2.2

/-- C13. For a boundary edge with distinct vertices, the two points of the boundary branch
are the fitted curve at `t1` and `t2`, the two points of the straight-edge branch are
`(1 - t) v0 + t v1` at `t1` and `t2`, and for every `t` (so for `t1` and `t2`) the curve point
minus the straight point is `h s(t) (-sin alpha, cos alpha)`, while the scalar product of the
curve point minus `v0` with the unit chord direction `coordinate_axis` is `t h`. -/
theorem identical_parameterization (v0 v1 n0 n1 : Point2 ℝ) (hv : v0 ≠ v1) :
    boundary_points realMath v0 v1 n0 n1
        = [curve realMath v0 v1 n0 n1 (interior_gl_points realMath).1,
           curve realMath v0 v1 n0 n1 (interior_gl_points realMath).2]
    ∧ straight_points realMath v0 v1
        = [(Point2.scale (1 - (interior_gl_points realMath).1) v0).add
              (Point2.scale (interior_gl_points realMath).1 v1),
           (Point2.scale (1 - (interior_gl_points realMath).2) v0).add
              (Point2.scale (interior_gl_points realMath).2 v1)]
    ∧ ∀ t : ℝ,
        (curve realMath v0 v1 n0 n1 t).sub ((Point2.scale (1 - t) v0).add (Point2.scale t v1))
            = Point2.scale
                (h realMath v0 v1
                  * s_t (b realMath (alpha realMath v0 v1) n0 n1)
                      (c realMath (alpha realMath v0 v1) n0) t)
                ⟨-Real.sin (alpha realMath v0 v1), Real.cos (alpha realMath v0 v1)⟩
        ∧ ((curve realMath v0 v1 n0 n1 t).sub v0).dot (coordinate_axis realMath v0 v1)
            = t * h realMath v0 v1 := by
  have hone : (1.0 : ℝ) = 1 := by norm_num
  refine ⟨rfl, ?_, ?_⟩
  · simp only [straight_points, hone]
  · intro t
    have hcs := h_mul_cos_sin v0 v1 hv
    have hsq := Real.cos_sq_add_sin_sq (alpha realMath v0 v1)
    constructor
    · simp only [curve, real_point, rotate, Point2.scale, Point2.add, Point2.sub, realMath_sin,
        realMath_cos]
      ext
      · simp only
        linear_combination t * hcs.1
      · simp only
        linear_combination t * hcs.2
    · rw [coordinate_axis_eq v0 v1 hv]
      simp only [curve, real_point, rotate, Point2.scale, Point2.add, Point2.sub, Point2.dot,
        realMath_sin, realMath_cos]
      linear_combination (t * h realMath v0 v1) * hsq

/-- C13, at the edge from `(1, 0)` to `(0, 1)` with the normals `(1, 0)` and `(0, 1)`, for the
first abscissa. -/
theorem identical_parameterization_witness :
    ((curve realMath ⟨1, 0⟩ ⟨0, 1⟩ ⟨1, 0⟩ ⟨0, 1⟩ (interior_gl_points realMath).1).sub
        ⟨1, 0⟩).dot (coordinate_axis realMath ⟨1, 0⟩ ⟨0, 1⟩)
      = (interior_gl_points realMath).1 * h realMath ⟨1, 0⟩ ⟨0, 1⟩ :=
  ((identical_parameterization ⟨1, 0⟩ ⟨0, 1⟩ ⟨1, 0⟩ ⟨0, 1⟩ (by simp)).2.2
    (interior_gl_points realMath).1).2

/-! ## The divisions -/

/-- C14. For an edge with distinct vertices and non-zero normals `n0`, `n1`: the quotients in
`c` and `b` have the denominators `denominator alpha n0` and `denominator alpha n1`; each
denominator is zero exactly when its normal is a multiple of the chord `v1 - v0`; so when
neither normal is parallel to the chord, neither denominator is zero. -/
theorem division_guard (v0 v1 n0 n1 : Point2 ℝ) (hv : v0 ≠ v1)
    (_hn0 : n0.x ≠ 0 ∨ n0.y ≠ 0) (_hn1 : n1.x ≠ 0 ∨ n1.y ≠ 0) :
    (c realMath (alpha realMath v0 v1) n0
        = -(numerator realMath (alpha realMath v0 v1) n0
            / denominator realMath (alpha realMath v0 v1) n0)
      ∧ b realMath (alpha realMath v0 v1) n0 n1
        = numerator realMath (alpha realMath v0 v1) n1
            / denominator realMath (alpha realMath v0 v1) n1
          - 2 * c realMath (alpha realMath v0 v1) n0)
    ∧ (denominator realMath (alpha realMath v0 v1) n0 = 0
        ↔ ∃ k : ℝ, n0 = Point2.scale k (coordinate_vector v0 v1))
    ∧ (denominator realMath (alpha realMath v0 v1) n1 = 0
        ↔ ∃ k : ℝ, n1 = Point2.scale k (coordinate_vector v0 v1))
    ∧ ((¬ ∃ k : ℝ, n0 = Point2.scale k (coordinate_vector v0 v1)) →
        (¬ ∃ k : ℝ, n1 = Point2.scale k (coordinate_vector v0 v1)) →
        denominator realMath (alpha realMath v0 v1) n0 ≠ 0
          ∧ denominator realMath (alpha realMath v0 v1) n1 ≠ 0) := by
  have hiff : ∀ n : Point2 ℝ, denominator realMath (alpha realMath v0 v1) n = 0
      ↔ ∃ k : ℝ, n = Point2.scale k (coordinate_vector v0 v1) := by
    intro n
    have hh := h_pos v0 v1 hv
    have hs := h_mul_self v0 v1
    rw [denominator_eq v0 v1 n hv, div_eq_zero_iff]
    constructor
    · rintro (hc | hz)
      · refine ⟨(n.x * (v1.x - v0.x) + n.y * (v1.y - v0.y))
          / (h realMath v0 v1 * h realMath v0 v1), ?_⟩
        have hne : h realMath v0 v1 * h realMath v0 v1 ≠ 0 := (mul_pos hh hh).ne'
        simp only [Point2.scale, coordinate_vector, Point2.sub]
        ext
        · simp only
          field_simp
          rw [hs]
          linear_combination (-(v1.y - v0.y)) * hc
        · simp only
          field_simp
          rw [hs]
          linear_combination (v1.x - v0.x) * hc
      · exact absurd hz hh.ne'
    · rintro ⟨k, hk⟩
      left
      rw [hk]
      simp only [Point2.scale, coordinate_vector, Point2.sub]
      ring
  exact ⟨⟨rfl, rfl⟩, hiff n0, hiff n1,
    fun h0 h1 => ⟨fun hz => h0 ((hiff n0).mp hz), fun hz => h1 ((hiff n1).mp hz)⟩⟩

/-- C14, at the edge from `(1, 0)` to `(0, 1)` with the normals `(1, 0)` and `(0, 1)`. -/
theorem division_guard_witness :
    (denominator realMath (alpha realMath ⟨1, 0⟩ ⟨0, 1⟩) ⟨1, 0⟩ = 0
        ↔ ∃ k : ℝ, (⟨1, 0⟩ : Point2 ℝ) = Point2.scale k (coordinate_vector ⟨1, 0⟩ ⟨0, 1⟩))
    ∧ (denominator realMath (alpha realMath ⟨1, 0⟩ ⟨0, 1⟩) ⟨0, 1⟩ = 0
        ↔ ∃ k : ℝ, (⟨0, 1⟩ : Point2 ℝ) = Point2.scale k (coordinate_vector ⟨1, 0⟩ ⟨0, 1⟩)) :=
  ⟨(division_guard ⟨1, 0⟩ ⟨0, 1⟩ ⟨1, 0⟩ ⟨0, 1⟩ (by simp) (Or.inl one_ne_zero)
      (Or.inr one_ne_zero)).2.1,
    (division_guard ⟨1, 0⟩ ⟨0, 1⟩ ⟨1, 0⟩ ⟨0, 1⟩ (by simp) (Or.inl one_ne_zero)
      (Or.inr one_ne_zero)).2.2.1⟩

/-! ## The unit points -/

/-- C15, refuted as stated: for the edge from `(1, 0)` to `(0, 1)` with the normals `(1, 0)`
and `(0, 1)`, the array `new_unit_points` is not `(1/3, s(1/3))`, `(2/3, s(2/3))`. -/
theorem unit_points_thirds_counterexample :
    new_unit_points realMath ⟨1, 0⟩ ⟨0, 1⟩ ⟨1, 0⟩ ⟨0, 1⟩
      ≠ [⟨1 / 3, s_t (b realMath (alpha realMath ⟨1, 0⟩ ⟨0, 1⟩) ⟨1, 0⟩ ⟨0, 1⟩)
            (c realMath (alpha realMath ⟨1, 0⟩ ⟨0, 1⟩) ⟨1, 0⟩) (1 / 3)⟩,
         ⟨2 / 3, s_t (b realMath (alpha realMath ⟨1, 0⟩ ⟨0, 1⟩) ⟨1, 0⟩ ⟨0, 1⟩)
            (c realMath (alpha realMath ⟨1, 0⟩ ⟨0, 1⟩) ⟨1, 0⟩) (2 / 3)⟩] := by
  intro he
  have hx := congrArg (fun l : List (Point2 ℝ) => l.map Point2.x) he
  simp only [new_unit_points, List.map, List.cons.injEq, and_true] at hx
  have hlt := interior_gl_points_not_thirds
  linarith [hx.1, hlt.1]

/-- C15, amended: for a boundary edge the cubic is evaluated at the two entries of
`interior_gl_points`, `t1 = 0.5 - 0.5 sqrt(1/5)` and `t2 = 0.5 + 0.5 sqrt(1/5)`: the two unit
points are `(t1, s(t1))` and `(t2, s(t2))`, where `t1 < 1/3` and `2/3 < t2`. -/
theorem unit_points_gauss_lobatto (v0 v1 n0 n1 : Point2 ℝ) :
    new_unit_points realMath v0 v1 n0 n1
      = [⟨0.5 - 0.5 * Real.sqrt (1 / 5),
          s_t (b realMath (alpha realMath v0 v1) n0 n1) (c realMath (alpha realMath v0 v1) n0)
            (0.5 - 0.5 * Real.sqrt (1 / 5))⟩,
         ⟨0.5 + 0.5 * Real.sqrt (1 / 5),
          s_t (b realMath (alpha realMath v0 v1) n0 n1) (c realMath (alpha realMath v0 v1) n0)
            (0.5 + 0.5 * Real.sqrt (1 / 5))⟩]
    ∧ 0.5 - 0.5 * Real.sqrt (1 / 5) < 1 / 3
    ∧ 2 / 3 < 0.5 + 0.5 * Real.sqrt (1 / 5) := by
  have hlit : (1.0 / 5.0 : ℝ) = 1 / 5 := by norm_num
  have hlt := interior_gl_points_not_thirds
  simp only [interior_gl_points, realMath_sqrt, hlit] at hlt
  refine ⟨?_, hlt.1, hlt.2⟩
  simp only [new_unit_points, interior_gl_points, realMath_sqrt, hlit]

/-! ## The boundary branch without an angle -/

/-- C16. For a boundary edge with distinct vertices and non-zero denominators, the two points
of the boundary branch are `v0 + t d + s(t) (-d.y, d.x)` at `t1` and `t2`, with `d = v1 - v0`
and `s` the Horner cubic of the coefficients written as quotients in the components of the
normals and of `d`; the source's `c` and `b` equal these quotients, and
`cos alpha = d.x / h`, `sin alpha = d.y / h`. -/
theorem trig_free_equivalent (v0 v1 n0 n1 : Point2 ℝ) (hv : v0 ≠ v1)
    (_hd0 : denominator realMath (alpha realMath v0 v1) n0 ≠ 0)
    (_hd1 : denominator realMath (alpha realMath v0 v1) n1 ≠ 0) :
    boundary_points realMath v0 v1 n0 n1
        = [trig_free_point v0 v1 n0 n1 (interior_gl_points realMath).1,
           trig_free_point v0 v1 n0 n1 (interior_gl_points realMath).2]
    ∧ (c realMath (alpha realMath v0 v1) n0 = trig_free_c v0 v1 n0
      ∧ b realMath (alpha realMath v0 v1) n0 n1 = trig_free_b v0 v1 n0 n1)
    ∧ Real.cos (alpha realMath v0 v1) = (v1.x - v0.x) / h realMath v0 v1
    ∧ Real.sin (alpha realMath v0 v1) = (v1.y - v0.y) / h realMath v0 v1 := by
  have hc : c realMath (alpha realMath v0 v1) n0 = trig_free_c v0 v1 n0 := c_eq v0 v1 n0 hv
  have hb : b realMath (alpha realMath v0 v1) n0 n1 = trig_free_b v0 v1 n0 n1 := by
    rw [b_eq v0 v1 n0 n1 hv, hc]
    rfl
  refine ⟨?_, ⟨hc, hb⟩, cos_alpha v0 v1 hv, sin_alpha v0 v1 hv⟩
  rw [boundary_points_eq v0 v1 n0 n1 hv, hc, hb]
  simp only [trig_free_point, Point2.add, Point2.scale, Point2.sub]
  refine congrArg₂ List.cons ?_ (congrArg₂ List.cons ?_ rfl)
  · ext
    · simp only
      ring
    · simp only
  · ext
    · simp only
      ring
    · simp only

/-- C16, at the edge from `(1, 0)` to `(0, 1)` with the normals `(1, 0)` and `(0, 1)`. -/
theorem trig_free_equivalent_witness :
    boundary_points realMath ⟨1, 0⟩ ⟨0, 1⟩ ⟨1, 0⟩ ⟨0, 1⟩
      = [trig_free_point ⟨1, 0⟩ ⟨0, 1⟩ ⟨1, 0⟩ ⟨0, 1⟩ (interior_gl_points realMath).1,
         trig_free_point ⟨1, 0⟩ ⟨0, 1⟩ ⟨1, 0⟩ ⟨0, 1⟩ (interior_gl_points realMath).2] :=
  (trig_free_equivalent ⟨1, 0⟩ ⟨0, 1⟩ ⟨1, 0⟩ ⟨0, 1⟩ (by simp)
    (denominator_ne_zero _ _ _ (by simp) (by norm_num))
    (denominator_ne_zero _ _ _ (by simp) (by norm_num))).1

/-! ## Further invariances of the boundary branch -/

/-- C17. For a boundary edge with distinct vertices and non-zero denominators and all
non-zero factors `lam`, `mu`, replacing the normals `n0`, `n1` by `lam n0`, `mu n1` changes
neither `c` nor `b` nor the two points of the boundary branch. -/
theorem normal_scaling_independence (v0 v1 n0 n1 : Point2 ℝ) (lam mu : ℝ) (_hv : v0 ≠ v1)
    (_hd0 : denominator realMath (alpha realMath v0 v1) n0 ≠ 0)
    (_hd1 : denominator realMath (alpha realMath v0 v1) n1 ≠ 0)
    (hlam : lam ≠ 0) (hmu : mu ≠ 0) :
    c realMath (alpha realMath v0 v1) (Point2.scale lam n0)
        = c realMath (alpha realMath v0 v1) n0
    ∧ b realMath (alpha realMath v0 v1) (Point2.scale lam n0) (Point2.scale mu n1)
        = b realMath (alpha realMath v0 v1) n0 n1
    ∧ boundary_points realMath v0 v1 (Point2.scale lam n0) (Point2.scale mu n1)
        = boundary_points realMath v0 v1 n0 n1 := by
  have hc := c_scale_normal (alpha realMath v0 v1) lam n0 hlam
  have hb := b_scale_normal (alpha realMath v0 v1) lam mu n0 n1 hlam hmu
  refine ⟨hc, hb, ?_⟩
  simp only [boundary_points, new_unit_points, hc, hb]

/-- C17, at the edge from `(1, 0)` to `(0, 1)` with the normals `(1, 0)` and `(0, 1)`, the first
normal reversed and tripled, the second halved. -/
theorem normal_scaling_independence_witness :
    boundary_points realMath ⟨1, 0⟩ ⟨0, 1⟩ (Point2.scale (-3) ⟨1, 0⟩) (Point2.scale (1 / 2) ⟨0, 1⟩)
      = boundary_points realMath ⟨1, 0⟩ ⟨0, 1⟩ ⟨1, 0⟩ ⟨0, 1⟩ :=
  (normal_scaling_independence ⟨1, 0⟩ ⟨0, 1⟩ ⟨1, 0⟩ ⟨0, 1⟩ (-3) (1 / 2) (by simp)
    (denominator_ne_zero _ _ _ (by simp) (by norm_num))
    (denominator_ne_zero _ _ _ (by simp) (by norm_num))
    (by norm_num) (by norm_num)).2.2

/-- C18. For a boundary edge with distinct vertices and non-zero denominators: reflecting
the vertices and the normals across the x-axis turns `c` into `-c`, `b` into `-b` and the two
points of the boundary branch into their reflections; scaling the two vertices by a factor
`k > 0` with the normals kept leaves `c` and `b` unchanged and scales the two points
by `k`. -/
theorem mirror_scale_equivariance (v0 v1 n0 n1 : Point2 ℝ) (k : ℝ) (hv : v0 ≠ v1)
    (_hd0 : denominator realMath (alpha realMath v0 v1) n0 ≠ 0)
    (_hd1 : denominator realMath (alpha realMath v0 v1) n1 ≠ 0) (hk : 0 < k) :
    (c realMath (alpha realMath (reflect v0) (reflect v1)) (reflect n0)
        = -c realMath (alpha realMath v0 v1) n0
      ∧ b realMath (alpha realMath (reflect v0) (reflect v1)) (reflect n0) (reflect n1)
        = -b realMath (alpha realMath v0 v1) n0 n1
      ∧ boundary_points realMath (reflect v0) (reflect v1) (reflect n0) (reflect n1)
        = (boundary_points realMath v0 v1 n0 n1).map reflect)
    ∧ (c realMath (alpha realMath (Point2.scale k v0) (Point2.scale k v1)) n0
        = c realMath (alpha realMath v0 v1) n0
      ∧ b realMath (alpha realMath (Point2.scale k v0) (Point2.scale k v1)) n0 n1
        = b realMath (alpha realMath v0 v1) n0 n1
      ∧ boundary_points realMath (Point2.scale k v0) (Point2.scale k v1) n0 n1
        = (boundary_points realMath v0 v1 n0 n1).map (Point2.scale k)) := by
  have hcr := c_reflect v0 v1 n0 hv
  have hbr := b_reflect v0 v1 n0 n1 hv
  have hcs := c_scale_vertices k v0 v1 n0 hk hv
  have hbs := b_scale_vertices k v0 v1 n0 n1 hk hv
  refine ⟨⟨hcr, hbr, ?_⟩, ⟨hcs, hbs, ?_⟩⟩
  · rw [boundary_points_eq _ _ _ _ (reflect_ne v0 v1 hv), boundary_points_eq _ _ _ _ hv, hcr, hbr]
    simp only [List.map, reflect, s_t]
    refine congrArg₂ List.cons ?_ (congrArg₂ List.cons ?_ rfl)
    · ext
      · simp only
        ring
      · simp only
        ring
    · ext
      · simp only
        ring
      · simp only
        ring
  · rw [boundary_points_eq _ _ _ _ (scale_ne k v0 v1 hk hv), boundary_points_eq _ _ _ _ hv,
      hcs, hbs]
    simp only [List.map, Point2.scale]
    refine congrArg₂ List.cons ?_ (congrArg₂ List.cons ?_ rfl)
    · ext
      · simp only
        ring
      · simp only
        ring
    · ext
      · simp only
        ring
      · simp only
        ring

/-- C18, at the edge from `(1, 0)` to `(0, 1)` with the normals `(1, 0)` and `(0, 1)`, and the
factor 2. -/
theorem mirror_scale_equivariance_witness :
    boundary_points realMath (reflect ⟨1, 0⟩) (reflect ⟨0, 1⟩) (reflect ⟨1, 0⟩) (reflect ⟨0, 1⟩)
        = (boundary_points realMath ⟨1, 0⟩ ⟨0, 1⟩ ⟨1, 0⟩ ⟨0, 1⟩).map reflect
    ∧ boundary_points realMath (Point2.scale 2 ⟨1, 0⟩) (Point2.scale 2 ⟨0, 1⟩) ⟨1, 0⟩ ⟨0, 1⟩
        = (boundary_points realMath ⟨1, 0⟩ ⟨0, 1⟩ ⟨1, 0⟩ ⟨0, 1⟩).map (Point2.scale 2) :=
  ⟨(mirror_scale_equivariance ⟨1, 0⟩ ⟨0, 1⟩ ⟨1, 0⟩ ⟨0, 1⟩ 2 (by simp)
      (denominator_ne_zero _ _ _ (by simp) (by norm_num))
      (denominator_ne_zero _ _ _ (by simp) (by norm_num)) (by norm_num)).1.2.2,
    (mirror_scale_equivariance ⟨1, 0⟩ ⟨0, 1⟩ ⟨1, 0⟩ ⟨0, 1⟩ 2 (by simp)
      (denominator_ne_zero _ _ _ (by simp) (by norm_num))
      (denominator_ne_zero _ _ _ (by simp) (by norm_num)) (by norm_num)).2.2.2⟩

end dealii
